import Mathlib

/-!
Verification of the core of `swagger-yaml-to-json-schema` (ytoj).

The JavaScript source is shallowly embedded: JavaScript values produced by
the YAML parser are modelled by the inductive type `JVal` (maps are
association lists in insertion order, which is how JavaScript objects
iterate); in-place mutation of a fragment is modelled by rebuilding the
tree; code that can throw returns `Except String`.  External collaborators
(the YAML parser `js-yaml`, the `url.URL` constructor, and the
`json-schema-ref-parser` dereferencer) are passed in as oracle functions,
as the spec designates them as black boxes outside the core.
-/

/-- Model of a JavaScript value as produced by `yaml.safeLoad` and
manipulated by the converter.  `undefined` models JavaScript `undefined`
(the result of reading an absent property); numbers are modelled as
integers, which covers every behaviour the converter exercises. -/
inductive JVal where
  | undefined : JVal
  | null : JVal
  | bool : Bool → JVal
  | num : Int → JVal
  | str : String → JVal
  | arr : List JVal → JVal
  | obj : List (String × JVal) → JVal

/-- Truthiness of a JavaScript value (`if (v)`): `undefined`, `null`,
`false`, `0` and the empty string are falsy, everything else is truthy. -/
def truthy : JVal → Bool
  | .undefined => false
  | .null => false
  | .bool b => b
  | .num n => n != 0
  | .str s => s != ""
  | .arr _ => true
  | .obj _ => true

/-- typeof v === 'object' (true for plain objects, arrays and `null`). -/
def isObjectLike : JVal → Bool
  | .null => true
  | .arr _ => true
  | .obj _ => true
  | _ => false

def isStr : JVal → Bool
  | .str _ => true
  | _ => false

/-- Reading key `k` from an object's field list: the first binding wins
(JavaScript objects cannot have duplicate keys); an absent key reads as
`undefined`. -/
def objGet (fields : List (String × JVal)) (k : String) : JVal :=
  match fields.find? (fun kv => kv.1 = k) with
  | some kv => kv.2
  | none => .undefined

/-- JavaScript property assignment `o[k] = v`: replace the first binding of
`k` in place, or append a new binding. -/
def setKey : List (String × JVal) → String → JVal → List (String × JVal)
  | [], k, v => [(k, v)]
  | kv :: rest, k, v => if kv.1 = k then (k, v) :: rest else kv :: setKey rest k v

/-- JavaScript `delete o[k]`: remove the binding of `k`.  (JavaScript
objects never hold duplicate keys, so removing every binding of `k`
coincides with deleting the single one.) -/
def delKey (fields : List (String × JVal)) (k : String) : List (String × JVal) :=
  fields.filter (fun kv => kv.1 ≠ k)

/-- Property read `v.k` in the situations where it cannot throw (the base
is known not to be `null`/`undefined`): objects look the key up, every
other value yields `undefined` (scalars and arrays own none of the keys
the converter reads). -/
def jget (v : JVal) (k : String) : JVal :=
  match v with
  | .obj fields => objGet fields k
  | _ => .undefined

/-- Property read `v.k` in full generality: reading a property of
`null`/`undefined` throws a TypeError. -/
def jsGet (v : JVal) (k : String) : Except String JVal :=
  match v with
  | .undefined => .error ("Cannot read properties of undefined (reading '" ++ k ++ "')")
  | .null => .error ("Cannot read properties of null (reading '" ++ k ++ "')")
  | v => .ok (jget v k)

/-- Whether an object value directly possesses the key (`_.has(obj, key)`
for a key without dots; arrays and scalars possess none of the searched
keys). -/
def objHasKey (v : JVal) (k : String) : Bool :=
  match v with
  | .obj fields => fields.any (fun kv => kv.1 = k)
  | _ => false

mutual

/-- Model of `findInNested` (lib/helpers.js): if the object itself has the
key, return `[obj]` and stop; otherwise recurse into every value of
`typeof === 'object'` and concatenate the results (`_.flatten(_.map(...))`
is unfolded into the two list walks below).  `_.map` over a non-object
yields `[]`, hence the catch-all case. -/
def findInNested : JVal → String → List JVal
  | .obj fields, key =>
    if fields.any (fun kv => kv.1 = key) then [.obj fields]
    else findInNestedFields fields key
  | .arr elems, key => findInNestedElems elems key
  | _, _ => []

/-- The `_.map`/`_.flatten` walk of `findInNested` over an object's values. -/
def findInNestedFields : List (String × JVal) → String → List JVal
  | [], _ => []
  | kv :: rest, key =>
    (if isObjectLike kv.2 then findInNested kv.2 key else []) ++ findInNestedFields rest key

/-- The `_.map`/`_.flatten` walk of `findInNested` over an array's elements. -/
def findInNestedElems : List JVal → String → List JVal
  | [], _ => []
  | e :: rest, key =>
    (if isObjectLike e then findInNested e key else []) ++ findInNestedElems rest key

end

mutual

/-- Whether some sub-object of `v` (including `v` itself, at any depth,
through objects and arrays) satisfies `p`. -/
def existsSub (p : JVal → Bool) : JVal → Bool
  | .obj fields => p (.obj fields) || existsSubFields p fields
  | .arr elems => p (.arr elems) || existsSubElems p elems
  | v => p v

def existsSubFields (p : JVal → Bool) : List (String × JVal) → Bool
  | [] => false
  | kv :: rest => existsSub p kv.2 || existsSubFields p rest

def existsSubElems (p : JVal → Bool) : List JVal → Bool
  | [] => false
  | e :: rest => existsSub p e || existsSubElems p rest

end

mutual

/-- Number of sub-objects of `v` (including `v` itself) that directly
possess key `k`. -/
def countKeySub (k : String) : JVal → Nat
  | .obj fields => (if (fields.any (fun kv => kv.1 = k)) then 1 else 0) + countKeySubFields k fields
  | .arr elems => countKeySubElems k elems
  | _ => 0

def countKeySubFields (k : String) : List (String × JVal) → Nat
  | [] => 0
  | kv :: rest => countKeySub k kv.2 + countKeySubFields k rest

def countKeySubElems (k : String) : List JVal → Nat
  | [] => 0
  | e :: rest => countKeySub k e + countKeySubElems k rest

end

/-- Some sub-object of `v` possesses key `k`. -/
def hasKeySub (k : String) (v : JVal) : Bool :=
  existsSub (fun x => objHasKey x k) v

mutual

/-- No sub-object of `v` possessing key `k` strictly contains another
sub-object possessing `k`. -/
def noNested (k : String) : JVal → Bool
  | .obj fields =>
    if fields.any (fun kv => kv.1 = k) then noNestedFields0 k fields
    else noNestedFields k fields
  | .arr elems => noNestedElems k elems
  | _ => true

/-- Below an object that possesses the key, the key must not occur at all. -/
def noNestedFields0 (k : String) : List (String × JVal) → Bool
  | [] => true
  | kv :: rest => !hasKeySub k kv.2 && noNestedFields0 k rest

def noNestedFields (k : String) : List (String × JVal) → Bool
  | [] => true
  | kv :: rest => noNested k kv.2 && noNestedFields k rest

def noNestedElems (k : String) : List JVal → Bool
  | [] => true
  | e :: rest => noNested k e && noNestedElems k rest

end

mutual

/-- Model of `convertNullables` (lib/helpers.js).  The source collects
`findInNested(schemaObj, 'nullable')` and then, for each found object,
executes `delete item.nullable; item.type = [item.type, 'null']` in place.
Because the search never descends below a found object, the found objects
are pairwise non-nested, so mutating each of them in place is the same as
the recursive rewrite below: an object possessing `nullable` is rewritten
(and its contents left alone, as the search stopped there), any other
object or array is searched further. -/
def convertNullables : JVal → JVal
  | .obj fields =>
    if fields.any (fun kv => kv.1 = "nullable") then
      .obj (setKey (delKey fields "nullable") "type"
        (.arr [objGet (delKey fields "nullable") "type", .str "null"]))
    else .obj (convertNullablesFields fields)
  | .arr elems => .arr (convertNullablesElems elems)
  | v => v

def convertNullablesFields : List (String × JVal) → List (String × JVal)
  | [] => []
  | kv :: rest => (kv.1, convertNullables kv.2) :: convertNullablesFields rest

def convertNullablesElems : List JVal → List JVal
  | [] => []
  | e :: rest => convertNullables e :: convertNullablesElems rest

end

/-- Validation status codes (lib/validators.js). -/
def validation.OK : Nat := 0
def validation.WARNING : Nat := 1
def validation.ERROR : Nat := 2

/-- Result of `validateSwagger`: a status and a message. -/
structure VResult where
  status : Nat
  msg : String
deriving Repr, DecidableEq

/-- Model of `validateSwagger` (lib/validators.js).  The source initialises
`result = { status: OK, msg: '' }` and then runs the title, description and
version checks in sequence, each overwriting `result` wholesale; the final
value is returned.  (The `default$id` side effect touches neither field.) -/
def validateSwagger (swagger : JVal) : VResult :=
  if truthy (jget swagger "info") then
    let r0 : VResult := ⟨validation.OK, ""⟩
    let r1 : VResult :=
      if !truthy (jget (jget swagger "info") "title") then
        ⟨validation.ERROR, "The title is missing in the Swagger YAML."⟩
      else r0
    let r2 : VResult :=
      if !truthy (jget (jget swagger "info") "description") then
        ⟨validation.WARNING, "The description is missing in the Swagger YAML."⟩
      else r1
    let r3 : VResult :=
      if !truthy (jget (jget swagger "info") "version") then
        ⟨validation.ERROR, "The version is missing in the Swagger YAML."⟩
      else r2
    r3
  else ⟨validation.ERROR, "The info object is missing in the Swagger YAML."⟩

mutual

/-- Array toString: elements joined with commas, null/undefined printing as empty. -/
def jsToStringElems : List JVal → String
  | [] => ""
  | [e] => jsToStringElem e
  | e :: e2 :: rest => jsToStringElem e ++ "," ++ jsToStringElems (e2 :: rest)

/-- One array element under Array.prototype.toString: null and undefined
print as empty, other values as `String(v)` (spelled out case by case so
that the recursion is structural). -/
def jsToStringElem : JVal → String
  | .undefined => ""
  | .null => ""
  | .bool b => if b then "true" else "false"
  | .num n => toString n
  | .str s => s
  | .arr es => jsToStringElems es
  | .obj _ => "[object Object]"

end

/-- JavaScript `String(v)` / template-literal coercion. -/
def jsToString : JVal → String
  | .undefined => "undefined"
  | .null => "null"
  | .bool b => if b then "true" else "false"
  | .num n => toString n
  | .str s => s
  | .arr es => jsToStringElems es
  | .obj _ => "[object Object]"

/-- Model of `propPath.slice(propPath.lastIndexOf('/') + 1)`: the part of
the string after the last slash (the whole string when there is none,
since `lastIndexOf` then yields -1 and `slice(0)` is the identity). -/
def sliceAfterLastSlash (s : String) : String :=
  ⟨(s.data.reverse.takeWhile (fun c => c ≠ '/')).reverse⟩

/-- Model of `propName.charAt(0).toLocaleLowerCase().concat(propName.slice(1))`
(the converter's names are ASCII, where `toLocaleLowerCase` is `toLower`). -/
def lowerFirst (s : String) : String :=
  match s.data with
  | [] => ""
  | c :: cs => ⟨c.toLower :: cs⟩

/-- JavaScript strict equality of a value against a string literal
(`v === 's'`). -/
def isStrEq (v : JVal) (s : String) : Bool :=
  match v with
  | .str t => t = s
  | _ => false

/-- Is the value a JavaScript array? -/
def isArr : JVal → Bool
  | .arr _ => true
  | _ => false

/-- Model of `propPath.slice(propPath.lastIndexOf('/') + 1)`.  Both strings
and arrays carry `lastIndexOf` and `slice`: a string yields the substring
after its last '/', an array yields the sub-array after its last element
strictly equal to '/' (only the string '/' compares equal).  Every other
value throws when `lastIndexOf` is called on it: a TypeError reading the
property for `null`/`undefined`, "not a function" for the rest. -/
def sliceAfterLastSlashJS : JVal → Except String JVal
  | .str s => .ok (.str (sliceAfterLastSlash s))
  | .arr es => .ok (.arr ((es.reverse.takeWhile (fun e => !isStrEq e "/")).reverse))
  | .undefined => .error "Cannot read properties of undefined (reading 'lastIndexOf')"
  | .null => .error "Cannot read properties of null (reading 'lastIndexOf')"
  | _ => .error "propPath.lastIndexOf is not a function"

/-- Model of `propName.charAt(0).toLocaleLowerCase().concat(propName.slice(1))`
applied to the result of the slice above: only strings have `charAt`, so the
array produced by an array-valued `$ref` throws here. -/
def lowerFirstJS : JVal → Except String String
  | .str s => .ok (lowerFirst s)
  | _ => .error "propName.charAt is not a function"

/-- The fragment as written into `schemaProps`:
`schemaProps[propName] = container.schema; schemaProps[propName].description
= container.description;`.  On every non-throwing path the fragment is an
object (it has a truthy `type` or a string `$ref`), so the catch-all branch
is unreachable there. -/
def finishFrag (container schemaV : JVal) : JVal :=
  match schemaV with
  | .obj fs => .obj (setKey fs "description" (jget container "description"))
  | v => v

/-- Model of one iteration of the `for (const container of result)` loop of
`addSchemaProps` (lib/helpers.js): computes the property name (and the
updated anonymous-scalar counter) and the value written, or throws.  The
containers come from `findInNested(swagger, 'schema')`, so each is an
object possessing `schema`. -/
def processContainer (container : JVal) (scalarId : Nat) :
    Except String ((String × JVal) × Nat) := do
  let nameV := jget container "name"
  let propName0 : JVal := if truthy nameV then nameV else .str ""
  let schemaV := jget container "schema"
  let typeV ← jsGet schemaV "type"
  if truthy typeV then
    if isStrEq typeV "array" then do
      let refV ← jsGet (jget schemaV "items") "$ref"
      if truthy propName0 then
        .ok ((jsToString propName0, finishFrag container schemaV), scalarId)
      else do
        let sliced ← sliceAfterLastSlashJS refV
        .ok (("arrayOf" ++ jsToString sliced, finishFrag container schemaV), scalarId)
    else
      if truthy propName0 then
        .ok ((jsToString propName0, finishFrag container schemaV), scalarId)
      else
        .ok ((jsToString typeV ++ "-" ++ toString (scalarId + 1),
              finishFrag container schemaV), scalarId + 1)
  else do
    let sliced ← sliceAfterLastSlashJS (jget schemaV "$ref")
    let propName1 ← lowerFirstJS sliced
    .ok ((propName1, finishFrag container schemaV), scalarId)

/-- The whole loop of `addSchemaProps` over the found containers, threading
the `scalarId` counter (initialised to 0) and collecting the written
(name, fragment) pairs in order. -/
def processContainers : List JVal → Nat → Except String (List (String × JVal) × Nat)
  | [], n => .ok ([], n)
  | c :: rest, n =>
    match processContainer c n with
    | .error e => .error e
    | .ok (pair, n2) =>
      match processContainers rest n2 with
      | .error e => .error e
      | .ok (pairs, n3) => .ok (pair :: pairs, n3)

/-- Model of `addSchemaProps` (lib/helpers.js): run the loop over
`findInNested(swagger, 'schema')`; on any throw, wrap the error in the
descriptive message of the `catch` block.  (The source writes into
`schemaProps` as it goes; since a throw aborts the whole conversion, only
the fully successful write-out is observable.) -/
def addSchemaProps (swagger : JVal) (schemaProps : List (String × JVal)) :
    Except String (List (String × JVal)) :=
  match processContainers (findInNested swagger "schema") 0 with
  | .ok (pairs, _) => .ok (pairs.foldl (fun acc kv => setKey acc kv.1 kv.2) schemaProps)
  | .error e =>
    .error ("Could not parse Swagger paths, make sure that each schema that is not a $ref has a type.\n  " ++ e)

/-- Object-spread contribution of a value: `{...v}` takes an object's own
fields, an array's or string's indexed elements, and nothing from
primitives, null or undefined. -/
def spreadEntries : JVal → List (String × JVal)
  | .obj fs => fs
  | .arr es => es.enum.map (fun p => (toString p.1, p.2))
  | .str s => s.data.enum.map (fun p => (toString p.1, .str (String.singleton p.2)))
  | _ => []

/-- Folding a spread into an accumulated object literal: later keys
overwrite in place, new keys append — JavaScript object-literal semantics. -/
def spreadFold (a b : List (String × JVal)) : List (String × JVal) :=
  b.foldl (fun acc kv => setKey acc kv.1 kv.2) a

/-- Model of `Object.entries(v)`: throws on null/undefined. -/
def jsEntries : JVal → Except String (List (String × JVal))
  | .undefined => .error "Cannot convert undefined or null to object"
  | .null => .error "Cannot convert undefined or null to object"
  | v => .ok (spreadEntries v)

/-- One step of the `reduce` inside `extractSchemaPropertiesFromAsyncAPI`
(lib/index.js): if the entry's `payload` passes
`typeof value.payload === 'object'` (true for objects, arrays and null),
write `r[key] = {...value, ...value.payload}` and delete the `payload` key
from it; otherwise leave the accumulator alone.  Reading `.payload` of a
null or undefined entry throws. -/
def asyncStep (r : List (String × JVal)) (kv : String × JVal) :
    Except String (List (String × JVal)) := do
  let payload ← jsGet kv.2 "payload"
  if isObjectLike payload then
    .ok (setKey r kv.1
      (.obj (delKey (spreadFold (spreadFold [] (spreadEntries kv.2)) (spreadEntries payload)) "payload")))
  else .ok r

/-- Model of `extractSchemaPropertiesFromAsyncAPI` (lib/index.js): the
`Object.entries(messages).reduce(..., {})` loop. -/
def extractSchemaPropertiesFromAsyncAPI (messages : JVal) :
    Except String (List (String × JVal)) := do
  let entries ← jsEntries messages
  entries.foldlM asyncStep []

def isUndefinedVal : JVal → Bool
  | .undefined => true
  | _ => false

def hexChar (n : Nat) : Char :=
  if n < 10 then Char.ofNat (48 + n) else Char.ofNat (87 + n)

/-- JSON.stringify escaping of one character inside a string literal. -/
def escapeChar (c : Char) : String :=
  if c = '"' then "\\\""
  else if c = '\\' then "\\\\"
  else if c = '\n' then "\\n"
  else if c = '\r' then "\\r"
  else if c = '\t' then "\\t"
  else if c = '\x08' then "\\b"
  else if c = '\x0c' then "\\f"
  else if c.toNat < 32 then
    "\\u00" ++ String.singleton (hexChar (c.toNat / 16)) ++ String.singleton (hexChar (c.toNat % 16))
  else String.singleton c

def quoteJSON (s : String) : String :=
  "\"" ++ String.join (s.data.map escapeChar) ++ "\""

mutual

/-- Model of `JSON.stringify` (compact form, as used on the assembled
schema).  Undefined-valued object properties are dropped; an undefined
array element stringifies as null (covered by the `undefined` case, which the
converter reaches only below an array or at no point at top level). -/
def jsonStringify : JVal → String
  | .undefined => "null"
  | .null => "null"
  | .bool b => if b then "true" else "false"
  | .num n => toString n
  | .str s => quoteJSON s
  | .arr es => "[" ++ String.intercalate "," (jsonElemPieces es) ++ "]"
  | .obj fs => "\x7b" ++ String.intercalate "," (jsonFieldPieces fs) ++ "\x7d"

/-- The serialized `key:value` pieces of an object, with undefined-valued
properties dropped. -/
def jsonFieldPieces : List (String × JVal) → List String
  | [] => []
  | kv :: rest =>
    if isUndefinedVal kv.2 then jsonFieldPieces rest
    else (quoteJSON kv.1 ++ ":" ++ jsonStringify kv.2) :: jsonFieldPieces rest

def jsonElemPieces : List JVal → List String
  | [] => []
  | e :: rest => jsonStringify e :: jsonElemPieces rest

end

/-- Worker for `replaceList`, recursing structurally on a fuel that bounds
the length of the remaining text (so that the definition evaluates inside
the kernel); the `0, s` case is unreachable while `fuel ≥ s.length`. -/
def replaceGo (p r : List Char) : Nat → List Char → List Char
  | _, [] => []
  | 0, s => s
  | fuel + 1, c :: rest =>
    if p.isPrefixOf (c :: rest) then r ++ replaceGo p r fuel (rest.drop (p.length - 1))
    else c :: replaceGo p r fuel rest

/-- Replace every occurrence of the nonempty pattern `p` by `r`, scanning
left to right — the semantics of
`text.replace(new RegExp(p, 'g'), r)` for a pattern without regex
metacharacters beyond `/` (the converter's pattern contains none that
change its literal meaning). -/
def replaceList (p r s : List Char) : List Char :=
  replaceGo p r s.length s

def replaceStr (p r s : String) : String :=
  ⟨replaceList p.data r.data s.data⟩

/-- Whether `p` occurs as a contiguous run inside `s`. -/
def occursWithin (p : List Char) : List Char → Bool
  | [] => p.isEmpty
  | c :: t => p.isPrefixOf (c :: t) || occursWithin p t

/-- String-level substring test. -/
def strContains (s pat : String) : Bool :=
  occursWithin pat.data s.data

/-- List-level model of `String.prototype.startsWith`. -/
def strStartsWith (s pre : String) : Bool :=
  pre.data.isPrefixOf s.data

/-- Model of `toJSON` (lib/index.js) with the YAML parser passed in as an
oracle (`yaml.safeLoad` may throw, modelled by `Except`): detect the
dialect marker and its major version, returning the parsed tree on
success and `none` (the source's `null`) otherwise. -/
def toJSON (parse : String → Except String JVal) (fromYAML : String) :
    Except String (Option JVal) := do
  let j ← parse fromYAML
  let swaggerVersion ← jsGet j "swagger"
  let openAPIVersion ← jsGet j "openapi"
  let asyncAPIVersion ← jsGet j "asyncapi"
  if truthy swaggerVersion then
    .ok (if strStartsWith (jsToString swaggerVersion) "2" then some j else none)
  else if truthy openAPIVersion then
    .ok (if strStartsWith (jsToString openAPIVersion) "3" then some j else none)
  else if truthy asyncAPIVersion then
    .ok (if strStartsWith (jsToString asyncAPIVersion) "2" then some j else none)
  else .ok none

/-- The configuration record assembled by `ytoj` (index.js): the caller's
options spread over the defaults `schema = draft-07 URI`, `id = ''`,
`resolveRefs = false`, `additionalProperties = false`. -/
structure Config where
  schema : String
  id : String
  resolveRefs : Bool
  additionalProperties : Bool

/-- The `schemaVersion` property seeded into `properties` by `makeSchema`. -/
def schemaVersionProp : JVal :=
  .obj [("type", .str "string"),
        ("description", .str "The version of this schema that will be used to validate JSON data")]

/-- Steps 1-5 of `makeSchema` (lib/index.js): build the skeleton, pick the
definitions container by dialect, seed `properties` (merging the
AsyncAPI message-derived properties), run `addSchemaProps`, attach the
definitions and normalize nullables.  In-place mutations of the `schema`
object are modelled by successive `setKey`s, which reproduce JavaScript's
update-in-place/append-at-end key order. -/
def assembleSchema (swagger : JVal) (cfg : Config) : Except String JVal := do
  let infoV ← jsGet swagger "info"
  let titleV ← jsGet infoV "title"
  let versionV ← jsGet infoV "version"
  let descV ← jsGet infoV "description"
  let schema0 : List (String × JVal) :=
    [("$schema", .null), ("$id", .null), ("title", titleV), ("version", versionV),
     ("description", if truthy descV then descV else .str "No description provided")]
  let (schemaPart, schemaProperties) ←
    if truthy (jget swagger "swagger") then
      pure (jget swagger "definitions", ([] : List (String × JVal)))
    else if truthy (jget swagger "asyncapi") then do
      let comps ← jsGet swagger "components"
      let schemas ← jsGet comps "schemas"
      let msgs ← jsGet comps "messages"
      let props ← extractSchemaPropertiesFromAsyncAPI msgs
      pure (schemas, props)
    else do
      let comps ← jsGet swagger "components"
      let schemas ← jsGet comps "schemas"
      pure (schemas, ([] : List (String × JVal)))
  let s1 := setKey schema0 "$schema" (.str cfg.schema)
  let s2 := if cfg.id ≠ "" then setKey s1 "$id" (.str cfg.id) else delKey s1 "$id"
  let s3 := setKey s2 "additionalProperties" (.bool cfg.additionalProperties)
  let props0 := spreadFold [("schemaVersion", schemaVersionProp)] schemaProperties
  let s4 := setKey s3 "properties" (.obj props0)
  let s5 := setKey s4 "required" (.arr [.str "schemaVersion"])
  let props1 ← addSchemaProps swagger props0
  let s6 := setKey s5 "properties" (.obj props1)
  let s7 := setKey s6 "definitions" schemaPart
  let s8 := setKey s7 "definitions" (convertNullables schemaPart)
  pure (.obj s8)

/-- Steps 6-8 of `makeSchema` (lib/index.js): serialize the assembled
schema; for OpenAPI 3 / AsyncAPI 2 do the global text substitution of
`#/components/schemas` by `#/definitions`; optionally hand the text to the
dereferencer oracle.  The source then `JSON.parse`s the text and returns
the object; as `JSON.parse` is inverse to the serialization, the model
keeps the serialized form, which is what the claims speak about. -/
def makeSchemaText (resolver : String → Except String String)
    (swagger : JVal) (cfg : Config) : Except String String := do
  let schemaObj ← assembleSchema swagger cfg
  let text := jsonStringify schemaObj
  let text2 :=
    if truthy (jget swagger "openapi") || truthy (jget swagger "asyncapi") then
      replaceStr "#/components/schemas" "#/definitions" text
    else text
  if cfg.resolveRefs then
    match resolver text2 with
    | .ok rtext => .ok rtext
    | .error e => .error ("Could not resolve $refs\n  " ++ e)
  else .ok text2

/-- Model of the public `ytoj` operation (index.js).  `parse` is the
`js-yaml` oracle, `validURL` the `url.URL` validity oracle, `resolver` the
ref-parser oracle.  Note: when no `id` is configured, the source calls
`lib.default$Id()`, but lib/index.js exports no `default$Id` (the getter
lives in lib/validators.js), so that call throws a TypeError; the model
reproduces this. -/
def ytoj (parse : String → Except String JVal) (validURL : String → Bool)
    (resolver : String → Except String String) (input : JVal) (cfg : Config) :
    Except String String :=
  match input with
  | .str s =>
    if cfg.id ≠ "" && !validURL cfg.id then .error "Invalid schema id - must be a URL."
    else
      match toJSON parse s with
      | .error e => .error e
      | .ok none => .error "Cannot convert input to JSON."
      | .ok (some swagger) =>
        let result := validateSwagger swagger
        if result.status == validation.ERROR then .error result.msg
        else if cfg.id = "" then .error "lib.default$Id is not a function"
        else makeSchemaText resolver swagger cfg
  | _ => .error "Expected the input to be a string."

/-! ### Basic lemmas about the association-list operations -/

theorem mem_of_mem_setKey {l : List (String × JVal)} {k : String} {v : JVal}
    {kv : String × JVal} (h : kv ∈ setKey l k v) : kv ∈ l ∨ kv = (k, v) := by
  induction l with
  | nil =>
    simp only [setKey, List.mem_singleton] at h
    exact Or.inr h
  | cons hd tl ih =>
    simp only [setKey] at h
    by_cases hk : hd.1 = k
    · simp only [hk, if_true, List.mem_cons] at h
      rcases h with h | h
      · exact Or.inr h
      · exact Or.inl (List.mem_cons_of_mem hd h)
    · simp only [hk, if_false, List.mem_cons] at h
      rcases h with h | h
      · exact Or.inl (h ▸ List.mem_cons_self hd tl)
      · rcases ih h with h2 | h2
        · exact Or.inl (List.mem_cons_of_mem hd h2)
        · exact Or.inr h2

theorem mem_of_mem_delKey {l : List (String × JVal)} {k : String}
    {kv : String × JVal} (h : kv ∈ delKey l k) : kv ∈ l :=
  List.mem_of_mem_filter h

theorem key_ne_of_mem_delKey {l : List (String × JVal)} {k : String}
    {kv : String × JVal} (h : kv ∈ delKey l k) : kv.1 ≠ k := by
  have h2 := List.of_mem_filter h
  simpa using h2

theorem objGet_setKey_self (l : List (String × JVal)) (k : String) (v : JVal) :
    objGet (setKey l k v) k = v := by
  induction l with
  | nil => simp [setKey, objGet]
  | cons hd tl ih =>
    by_cases hk : hd.1 = k
    · simp [setKey, hk, objGet]
    · simp only [setKey, hk, if_false]
      simpa [objGet, List.find?, hk] using ih

theorem objGet_eq_undef_or_mem (l : List (String × JVal)) (k : String) :
    objGet l k = .undefined ∨ (k, objGet l k) ∈ l := by
  unfold objGet
  cases hf : l.find? (fun kv => kv.1 = k) with
  | none => exact Or.inl rfl
  | some kv =>
    right
    have hmem := List.mem_of_find?_eq_some hf
    have hkey := List.find?_some hf
    have : kv.1 = k := by simpa using hkey
    rcases kv with ⟨a, b⟩
    simp only at this
    subst this
    simpa using hmem

theorem any_key_setKey_eq_false {l : List (String × JVal)} {k k2 : String} {v : JVal}
    (hne : k ≠ k2) (hl : l.any (fun kv => kv.1 = k2) = false) :
    (setKey l k v).any (fun kv => kv.1 = k2) = false := by
  rw [List.any_eq_false] at hl ⊢
  intro kv hkv
  rcases mem_of_mem_setKey hkv with h | h
  · exact hl kv h
  · subst h
    simpa using hne

theorem any_key_delKey_self (l : List (String × JVal)) (k : String) :
    (delKey l k).any (fun kv => kv.1 = k) = false := by
  rw [List.any_eq_false]
  intro kv hkv
  simpa using key_ne_of_mem_delKey hkv

/-! ### An induction principle for JVal that descends through the lists -/

theorem JVal.subInd (P : JVal → Prop)
    (hUndefCase : P .undefined) (hnull : P .null) (hbool : ∀ b, P (.bool b))
    (hnum : ∀ n, P (.num n)) (hstr : ∀ s, P (.str s))
    (harr : ∀ es, (∀ e ∈ es, P e) → P (.arr es))
    (hobj : ∀ fs, (∀ kv ∈ fs, P kv.2) → P (.obj fs)) :
    ∀ v, P v
  | .undefined => hUndefCase
  | .null => hnull
  | .bool b => hbool b
  | .num n => hnum n
  | .str s => hstr s
  | .arr es => harr es (fun e he =>
      JVal.subInd P hUndefCase hnull hbool hnum hstr harr hobj e)
  | .obj fs => hobj fs (fun kv hkv =>
      JVal.subInd P hUndefCase hnull hbool hnum hstr harr hobj kv.2)
termination_by v => sizeOf v
decreasing_by
  · have := List.sizeOf_lt_of_mem he
    simp only [JVal.arr.sizeOf_spec]
    omega
  · have h1 := List.sizeOf_lt_of_mem hkv
    rcases kv with ⟨a, b⟩
    simp only [JVal.obj.sizeOf_spec, Prod.mk.sizeOf_spec] at h1 ⊢
    omega

/-! ### Lemmas about the tree search -/

theorem mem_findInNestedFields {l : List (String × JVal)} {key : String} {x : JVal} :
    x ∈ findInNestedFields l key ↔
      ∃ kv, kv ∈ l ∧ isObjectLike kv.2 = true ∧ x ∈ findInNested kv.2 key := by
  induction l with
  | nil => simp [findInNestedFields]
  | cons hd tl ih =>
    simp only [findInNestedFields, List.mem_append, ih]
    constructor
    · intro h
      rcases h with h | ⟨kv, hkv, hobj, hx⟩
      · by_cases hol : isObjectLike hd.2
        · exact ⟨hd, List.mem_cons_self hd tl, hol, by simpa [hol] using h⟩
        · simp [hol] at h
      · exact ⟨kv, List.mem_cons_of_mem hd hkv, hobj, hx⟩
    · intro ⟨kv, hkv, hobj, hx⟩
      rcases List.mem_cons.mp hkv with h | h
      · subst h
        exact Or.inl (by simpa [hobj] using hx)
      · exact Or.inr ⟨kv, h, hobj, hx⟩

theorem mem_findInNestedElems {l : List JVal} {key : String} {x : JVal} :
    x ∈ findInNestedElems l key ↔
      ∃ e, e ∈ l ∧ isObjectLike e = true ∧ x ∈ findInNested e key := by
  induction l with
  | nil => simp [findInNestedElems]
  | cons hd tl ih =>
    simp only [findInNestedElems, List.mem_append, ih]
    constructor
    · intro h
      rcases h with h | ⟨e, he, hobj, hx⟩
      · by_cases hol : isObjectLike hd
        · exact ⟨hd, List.mem_cons_self hd tl, hol, by simpa [hol] using h⟩
        · simp [hol] at h
      · exact ⟨e, List.mem_cons_of_mem hd he, hobj, hx⟩
    · intro ⟨e, he, hobj, hx⟩
      rcases List.mem_cons.mp he with h | h
      · subst h
        exact Or.inl (by simpa [hobj] using hx)
      · exact Or.inr ⟨e, h, hobj, hx⟩

/-- Every element of the search result directly possesses the key. -/
theorem objHasKey_of_mem_findInNested {key : String} :
    ∀ v, ∀ x ∈ findInNested v key, objHasKey x key = true := by
  intro v
  induction v using JVal.subInd with
  | hobj fs ih =>
    intro x hx
    by_cases hany : fs.any (fun kv => kv.1 = key)
    · simp only [findInNested, hany, if_true, List.mem_singleton] at hx
      subst hx
      simpa [objHasKey] using hany
    · simp only [findInNested, hany, if_false] at hx
      obtain ⟨kv, hkv, _, hx2⟩ := mem_findInNestedFields.mp hx
      exact ih kv hkv x hx2
  | harr es ih =>
    intro x hx
    simp only [findInNested] at hx
    obtain ⟨e, he, _, hx2⟩ := mem_findInNestedElems.mp hx
    exact ih e he x hx2
  | hUndefCase => intro x hx; simp [findInNested] at hx
  | hnull => intro x hx; simp [findInNested] at hx
  | hbool b => intro x hx; simp [findInNested] at hx
  | hnum n => intro x hx; simp [findInNested] at hx
  | hstr s => intro x hx; simp [findInNested] at hx

/-- Non-object values carry no sub-object with a key. -/
theorem hasKeySub_scalar (k : String) (v : JVal)
    (h : ∀ es, v ≠ .arr es) (h2 : ∀ fs, v ≠ .obj fs) : hasKeySub k v = false := by
  cases v with
  | arr es => exact absurd rfl (h es)
  | obj fs => exact absurd rfl (h2 fs)
  | undefined => rfl
  | null => rfl
  | bool b => rfl
  | num n => rfl
  | str s => rfl

theorem hasKeySub_fields_true {k : String} {l : List (String × JVal)}
    (h : existsSubFields (fun x => objHasKey x k) l = true) :
    ∃ kv, kv ∈ l ∧ hasKeySub k kv.2 = true := by
  induction l with
  | nil => simp [existsSubFields] at h
  | cons hd tl ih =>
    simp only [existsSubFields, Bool.or_eq_true] at h
    rcases h with h | h
    · exact ⟨hd, List.mem_cons_self hd tl, h⟩
    · obtain ⟨kv, hkv, hsub⟩ := ih h
      exact ⟨kv, List.mem_cons_of_mem hd hkv, hsub⟩

theorem hasKeySub_fields_false {k : String} {l : List (String × JVal)}
    (h : existsSubFields (fun x => objHasKey x k) l = false) :
    ∀ kv ∈ l, hasKeySub k kv.2 = false := by
  induction l with
  | nil => simp
  | cons hd tl ih =>
    simp only [existsSubFields, Bool.or_eq_false_iff] at h
    intro kv hkv
    rcases List.mem_cons.mp hkv with h2 | h2
    · exact h2 ▸ h.1
    · exact ih h.2 kv h2

theorem hasKeySub_elems_true {k : String} {l : List JVal}
    (h : existsSubElems (fun x => objHasKey x k) l = true) :
    ∃ e, e ∈ l ∧ hasKeySub k e = true := by
  induction l with
  | nil => simp [existsSubElems] at h
  | cons hd tl ih =>
    simp only [existsSubElems, Bool.or_eq_true] at h
    rcases h with h | h
    · exact ⟨hd, List.mem_cons_self hd tl, h⟩
    · obtain ⟨e, he, hsub⟩ := ih h
      exact ⟨e, List.mem_cons_of_mem hd he, hsub⟩

theorem hasKeySub_elems_false {k : String} {l : List JVal}
    (h : existsSubElems (fun x => objHasKey x k) l = false) :
    ∀ e ∈ l, hasKeySub k e = false := by
  induction l with
  | nil => simp
  | cons hd tl ih =>
    simp only [existsSubElems, Bool.or_eq_false_iff] at h
    intro e he
    rcases List.mem_cons.mp he with h2 | h2
    · exact h2 ▸ h.1
    · exact ih h.2 e h2

/-- The search returns nothing exactly when no sub-object possesses the key. -/
theorem findInNested_eq_nil_iff {key : String} :
    ∀ v, findInNested v key = [] ↔ hasKeySub key v = false := by
  intro v
  induction v using JVal.subInd with
  | hobj fs ih =>
    by_cases hany : fs.any (fun kv => kv.1 = key)
    · simp [findInNested, hany, hasKeySub, existsSub, objHasKey]
    · simp only [findInNested, hany, if_false, hasKeySub, existsSub, objHasKey,
        Bool.false_or]
      constructor
      · intro h
        rw [List.eq_nil_iff_forall_not_mem] at h
        by_contra hex
        rw [Bool.not_eq_false] at hex
        obtain ⟨kv, hkv, hsub⟩ := hasKeySub_fields_true hex
        have : findInNested kv.2 key ≠ [] := by
          intro hnil
          rw [ih kv hkv] at hnil
          exact absurd hsub (by simp [hnil])
        obtain ⟨x, hx⟩ := List.exists_mem_of_ne_nil _ this
        have hol : isObjectLike kv.2 = true := by
          cases hv : kv.2 with
          | obj fs2 => rfl
          | arr es2 => rfl
          | null =>
            rw [hv] at hsub
            simp [hasKeySub, existsSub, objHasKey] at hsub
          | undefined =>
            rw [hv] at hsub
            simp [hasKeySub, existsSub, objHasKey] at hsub
          | bool b =>
            rw [hv] at hsub
            simp [hasKeySub, existsSub, objHasKey] at hsub
          | num n =>
            rw [hv] at hsub
            simp [hasKeySub, existsSub, objHasKey] at hsub
          | str s =>
            rw [hv] at hsub
            simp [hasKeySub, existsSub, objHasKey] at hsub
        exact h x (mem_findInNestedFields.mpr ⟨kv, hkv, hol, hx⟩)
      · intro h
        rw [List.eq_nil_iff_forall_not_mem]
        intro x hx
        obtain ⟨kv, hkv, hol, hx2⟩ := mem_findInNestedFields.mp hx
        have hfree : hasKeySub key kv.2 = false := hasKeySub_fields_false h kv hkv
        rw [← ih kv hkv] at hfree
        rw [hfree] at hx2
        simp at hx2
  | harr es ih =>
    simp only [findInNested, hasKeySub, existsSub, objHasKey, Bool.false_or]
    constructor
    · intro h
      rw [List.eq_nil_iff_forall_not_mem] at h
      by_contra hex
      rw [Bool.not_eq_false] at hex
      obtain ⟨e, he, hsub⟩ := hasKeySub_elems_true hex
      have : findInNested e key ≠ [] := by
        intro hnil
        rw [ih e he] at hnil
        exact absurd hsub (by simp [hnil])
      obtain ⟨x, hx⟩ := List.exists_mem_of_ne_nil _ this
      have hol : isObjectLike e = true := by
        cases hv : e with
        | obj fs2 => rfl
        | arr es2 => rfl
        | null =>
          rw [hv] at hsub
          simp [hasKeySub, existsSub, objHasKey] at hsub
        | undefined =>
          rw [hv] at hsub
          simp [hasKeySub, existsSub, objHasKey] at hsub
        | bool b =>
          rw [hv] at hsub
          simp [hasKeySub, existsSub, objHasKey] at hsub
        | num n =>
          rw [hv] at hsub
          simp [hasKeySub, existsSub, objHasKey] at hsub
        | str s =>
          rw [hv] at hsub
          simp [hasKeySub, existsSub, objHasKey] at hsub
      exact h x (mem_findInNestedElems.mpr ⟨e, he, hol, hx⟩)
    · intro h
      rw [List.eq_nil_iff_forall_not_mem]
      intro x hx
      obtain ⟨e, he, hol, hx2⟩ := mem_findInNestedElems.mp hx
      have hfree : hasKeySub key e = false := hasKeySub_elems_false h e he
      rw [← ih e he] at hfree
      rw [hfree] at hx2
      simp at hx2
  | hUndefCase => simp [findInNested, hasKeySub, existsSub, objHasKey]
  | hnull => simp [findInNested, hasKeySub, existsSub, objHasKey]
  | hbool b => simp [findInNested, hasKeySub, existsSub, objHasKey]
  | hnum n => simp [findInNested, hasKeySub, existsSub, objHasKey]
  | hstr s => simp [findInNested, hasKeySub, existsSub, objHasKey]

/-- An object that itself possesses the key is returned alone: the search
does not descend below it. -/
theorem findInNested_root {v : JVal} {key : String} (h : objHasKey v key = true) :
    findInNested v key = [v] := by
  cases v with
  | obj fields => simp only [objHasKey] at h; simp [findInNested, h]
  | arr es => simp [objHasKey] at h
  | undefined => simp [objHasKey] at h
  | null => simp [objHasKey] at h
  | bool b => simp [objHasKey] at h
  | num n => simp [objHasKey] at h
  | str s => simp [objHasKey] at h

/-! ### Lemmas about the nullable normalizer -/

theorem convertNullablesFields_congr :
    ∀ l : List (String × JVal), (∀ kv ∈ l, convertNullables kv.2 = kv.2) →
      convertNullablesFields l = l := by
  intro l h
  induction l with
  | nil => rfl
  | cons hd tl ih =>
    have h1 : convertNullables hd.2 = hd.2 := h hd (List.mem_cons_self hd tl)
    have h2 := ih (fun kv hkv => h kv (List.mem_cons_of_mem hd hkv))
    simp [convertNullablesFields, h1, h2]

theorem convertNullablesElems_congr :
    ∀ l : List JVal, (∀ e ∈ l, convertNullables e = e) →
      convertNullablesElems l = l := by
  intro l h
  induction l with
  | nil => rfl
  | cons hd tl ih =>
    have h1 : convertNullables hd = hd := h hd (List.mem_cons_self hd tl)
    have h2 := ih (fun e he => h e (List.mem_cons_of_mem hd he))
    simp [convertNullablesElems, h1, h2]

/-- A tree without any `nullable`-bearing sub-object is left untouched. -/
theorem convertNullables_of_free :
    ∀ v, hasKeySub "nullable" v = false → convertNullables v = v := by
  intro v
  induction v using JVal.subInd with
  | hobj fs ih =>
    intro h
    simp only [hasKeySub, existsSub, objHasKey, Bool.or_eq_false_iff] at h
    simp only [convertNullables, h.1, if_false]
    refine congrArg JVal.obj (convertNullablesFields_congr fs ?_)
    intro kv hkv
    exact ih kv hkv (hasKeySub_fields_false h.2 kv hkv)
  | harr es ih =>
    intro h
    simp only [hasKeySub, existsSub, objHasKey, Bool.false_or] at h
    simp only [convertNullables]
    refine congrArg JVal.arr (convertNullablesElems_congr es ?_)
    intro e he
    exact ih e he (hasKeySub_elems_false h e he)
  | hUndefCase => intro h; rfl
  | hnull => intro h; rfl
  | hbool b => intro h; rfl
  | hnum n => intro h; rfl
  | hstr s => intro h; rfl

theorem noNestedFields0_forall {k : String} {l : List (String × JVal)}
    (h : noNestedFields0 k l = true) : ∀ kv ∈ l, hasKeySub k kv.2 = false := by
  induction l with
  | nil => simp
  | cons hd tl ih =>
    simp only [noNestedFields0, Bool.and_eq_true, Bool.not_eq_true'] at h
    intro kv hkv
    rcases List.mem_cons.mp hkv with h2 | h2
    · exact h2 ▸ h.1
    · exact ih h.2 kv h2

theorem noNestedFields_forall {k : String} {l : List (String × JVal)}
    (h : noNestedFields k l = true) : ∀ kv ∈ l, noNested k kv.2 = true := by
  induction l with
  | nil => simp
  | cons hd tl ih =>
    simp only [noNestedFields, Bool.and_eq_true] at h
    intro kv hkv
    rcases List.mem_cons.mp hkv with h2 | h2
    · exact h2 ▸ h.1
    · exact ih h.2 kv h2

theorem noNestedElems_forall {k : String} {l : List JVal}
    (h : noNestedElems k l = true) : ∀ e ∈ l, noNested k e = true := by
  induction l with
  | nil => simp
  | cons hd tl ih =>
    simp only [noNestedElems, Bool.and_eq_true] at h
    intro e he
    rcases List.mem_cons.mp he with h2 | h2
    · exact h2 ▸ h.1
    · exact ih h.2 e h2

theorem existsSubFields_false_of_forall {k : String} {l : List (String × JVal)}
    (h : ∀ kv ∈ l, hasKeySub k kv.2 = false) :
    existsSubFields (fun x => objHasKey x k) l = false := by
  induction l with
  | nil => rfl
  | cons hd tl ih =>
    simp only [existsSubFields, Bool.or_eq_false_iff]
    exact ⟨h hd (List.mem_cons_self hd tl),
      ih (fun kv hkv => h kv (List.mem_cons_of_mem hd hkv))⟩

theorem existsSubElems_false_of_forall {k : String} {l : List JVal}
    (h : ∀ e ∈ l, hasKeySub k e = false) :
    existsSubElems (fun x => objHasKey x k) l = false := by
  induction l with
  | nil => rfl
  | cons hd tl ih =>
    simp only [existsSubElems, Bool.or_eq_false_iff]
    exact ⟨h hd (List.mem_cons_self hd tl),
      ih (fun e he => h e (List.mem_cons_of_mem hd he))⟩

theorem mem_convertNullablesFields {l : List (String × JVal)} {kv : String × JVal}
    (h : kv ∈ convertNullablesFields l) :
    ∃ kv0, kv0 ∈ l ∧ kv = (kv0.1, convertNullables kv0.2) := by
  induction l with
  | nil => simp [convertNullablesFields] at h
  | cons hd tl ih =>
    simp only [convertNullablesFields, List.mem_cons] at h
    rcases h with h | h
    · exact ⟨hd, List.mem_cons_self hd tl, h⟩
    · obtain ⟨kv0, hkv0, heq⟩ := ih h
      exact ⟨kv0, List.mem_cons_of_mem hd hkv0, heq⟩

theorem mem_convertNullablesElems {l : List JVal} {e : JVal}
    (h : e ∈ convertNullablesElems l) : ∃ e0, e0 ∈ l ∧ e = convertNullables e0 := by
  induction l with
  | nil => simp [convertNullablesElems] at h
  | cons hd tl ih =>
    simp only [convertNullablesElems, List.mem_cons] at h
    rcases h with h | h
    · exact ⟨hd, List.mem_cons_self hd tl, h⟩
    · obtain ⟨e0, he0, heq⟩ := ih h
      exact ⟨e0, List.mem_cons_of_mem hd he0, heq⟩

theorem convertNullablesFields_any_key (l : List (String × JVal)) (k : String) :
    (convertNullablesFields l).any (fun kv => kv.1 = k) = l.any (fun kv => kv.1 = k) := by
  induction l with
  | nil => rfl
  | cons hd tl ih => simp [convertNullablesFields, ih]

/-- hasKeySub on a two-element array. -/
theorem hasKeySub_arr_pair (k : String) (t u : JVal) :
    hasKeySub k (.arr [t, u]) = (hasKeySub k t || hasKeySub k u) := by
  simp [hasKeySub, existsSub, existsSubElems, objHasKey]

/-- After normalization of a tree in which no `nullable`-bearing object
contains another, no sub-object carries `nullable` any more. -/
theorem convertNullables_free_of_noNested :
    ∀ v, noNested "nullable" v = true → hasKeySub "nullable" (convertNullables v) = false := by
  intro v
  induction v using JVal.subInd with
  | hobj fs ih =>
    intro h
    by_cases hany : fs.any (fun kv => kv.1 = "nullable") = true
    · have h0 : noNestedFields0 "nullable" fs = true := by
        simpa only [noNested, hany, if_true] using h
      have hvals := noNestedFields0_forall h0
      have hconv : convertNullables (.obj fs) =
          .obj (setKey (delKey fs "nullable") "type"
            (.arr [objGet (delKey fs "nullable") "type", .str "null"])) := by
        simp [convertNullables, hany]
      rw [hconv]
      simp only [hasKeySub, existsSub, objHasKey]
      rw [Bool.or_eq_false_iff]
      constructor
      · exact any_key_setKey_eq_false (by decide) (any_key_delKey_self fs "nullable")
      · apply existsSubFields_false_of_forall
        intro kv hkv
        rcases mem_of_mem_setKey hkv with h2 | h2
        · exact hvals kv (mem_of_mem_delKey h2)
        · have h3 : kv.2 =
              JVal.arr [objGet (delKey fs "nullable") "type", JVal.str "null"] := by
            rw [h2]
          rw [h3, hasKeySub_arr_pair]
          have hu : hasKeySub "nullable" (JVal.str "null") = false := rfl
          have ht : hasKeySub "nullable" (objGet (delKey fs "nullable") "type") = false := by
            rcases objGet_eq_undef_or_mem (delKey fs "nullable") "type" with h4 | h4
            · rw [h4]; rfl
            · exact hvals _ (mem_of_mem_delKey h4)
          rw [ht, hu]
          rfl
    · rw [Bool.not_eq_true] at hany
      have h0 : noNestedFields "nullable" fs = true := by
        simpa only [noNested, hany, Bool.false_eq_true, if_false] using h
      have hvals := noNestedFields_forall h0
      have hconv : convertNullables (.obj fs) = .obj (convertNullablesFields fs) := by
        simp [convertNullables, hany]
      rw [hconv]
      simp only [hasKeySub, existsSub, objHasKey]
      rw [Bool.or_eq_false_iff]
      constructor
      · rw [convertNullablesFields_any_key]
        exact hany
      · apply existsSubFields_false_of_forall
        intro kv hkv
        obtain ⟨kv0, hkv0, heq⟩ := mem_convertNullablesFields hkv
        have h5 : kv.2 = convertNullables kv0.2 := by rw [heq]
        rw [h5]
        exact ih kv0 hkv0 (hvals kv0 hkv0)
  | harr es ih =>
    intro h
    have hvals := noNestedElems_forall (by simpa only [noNested] using h)
    have hconv : convertNullables (.arr es) = .arr (convertNullablesElems es) := rfl
    rw [hconv]
    simp only [hasKeySub, existsSub, objHasKey, Bool.false_or]
    apply existsSubElems_false_of_forall
    intro e he
    obtain ⟨e0, he0, heq⟩ := mem_convertNullablesElems he
    rw [heq]
    exact ih e0 he0 (hvals e0 he0)
  | hUndefCase => intro h; rfl
  | hnull => intro h; rfl
  | hbool b => intro h; rfl
  | hnum n => intro h; rfl
  | hstr s => intro h; rfl

/-! ### Claim C1 -/

/-- A document whose root object possesses `schema` and also contains a
nested object possessing `schema`. -/
def c1doc : JVal := .obj [("schema", .num 1), ("inner", .obj [("schema", .num 2)])]

/-- C1 counterexample: two sub-objects of `c1doc` directly possess the key
`schema` (the root and the object nested inside it), yet `findInNested`
reports only one of them — when an object possessing the key contains a
descendant that also possesses it, the descendant is NOT reported, because
the search returns `[obj]` without searching below a match. -/
theorem claim_C1_cex :
    countKeySub "schema" c1doc = 2 ∧ (findInNested c1doc "schema").length = 1 :=
  ⟨rfl, rfl⟩

/-- C1 (amended): `findInNested` returns only sub-objects that directly
possess the key; it returns a nonempty list exactly when some sub-object
possesses the key; and an object that itself possesses the key is returned
alone — its descendants are not searched, so matching objects nested
inside another matching object are not reported. -/
theorem claim_C1 :
    (∀ (v : JVal) (key : String), ∀ x ∈ findInNested v key, objHasKey x key = true)
    ∧ (∀ (v : JVal) (key : String), findInNested v key = [] ↔ hasKeySub key v = false)
    ∧ (∀ (v : JVal) (key : String), objHasKey v key = true → findInNested v key = [v]) :=
  ⟨fun v _ => objHasKey_of_mem_findInNested v,
   fun v _ => findInNested_eq_nil_iff v,
   fun _ _ h => findInNested_root h⟩

/-- A small document for exercising claim C1 at concrete inputs. -/
def c1wdoc : JVal := .obj [("x", .obj [("schema", .str "s")])]

/-- Witness for C1: at `c1wdoc`, the only reported object indeed possesses
the key; the search result on a key-free document is empty; and a root
match is returned alone. -/
theorem claim_C1_witness :
    objHasKey (JVal.obj [("schema", JVal.str "s")]) "schema" = true
    ∧ (findInNested c1wdoc "nullable" = [] ↔ hasKeySub "nullable" c1wdoc = false)
    ∧ findInNested (JVal.obj [("schema", JVal.str "s")]) "schema"
        = [JVal.obj [("schema", JVal.str "s")]] :=
  ⟨claim_C1.1 c1wdoc "schema" (JVal.obj [("schema", JVal.str "s")])
      (List.mem_singleton.mpr rfl),
   claim_C1.2.1 c1wdoc "nullable",
   claim_C1.2.2 (JVal.obj [("schema", JVal.str "s")]) "schema" rfl⟩

/-! ### Claim C2 -/

/-- A definitions object with a `nullable` fragment nested inside another
`nullable` fragment. -/
def c2doc : JVal :=
  .obj [("A", .obj [("nullable", .bool true), ("type", .str "object"),
    ("properties", .obj [("b", .obj [("nullable", .bool true), ("type", .str "string")])])])]

/-- C2 counterexample: after `convertNullables`, the definitions `c2doc`
still contain a sub-object with a `nullable` key (the fragment `b` nested
inside the likewise-nullable fragment `A` is never visited, because
`findInNested` stops at `A`). -/
theorem claim_C2_cex :
    hasKeySub "nullable" (convertNullables c2doc) = true := rfl

/-- C2 (amended): provided no `nullable`-bearing fragment is nested inside
another `nullable`-bearing fragment, the converted definitions contain no
sub-object with a `nullable` key; and every object that possesses a
`nullable` key is rewritten so that its `type` is the two-element array
`[oldType, "null"]` (whose second element is `"null"`). -/
theorem claim_C2 : ∀ d, noNested "nullable" d = true →
    hasKeySub "nullable" (convertNullables d) = false
    ∧ ∀ fs : List (String × JVal), fs.any (fun kv => kv.1 = "nullable") = true →
        ∃ rest t, convertNullables (.obj fs) = .obj rest
          ∧ objGet rest "type" = .arr [t, .str "null"] := by
  intro d hd
  constructor
  · exact convertNullables_free_of_noNested d hd
  · intro fs hany
    refine ⟨setKey (delKey fs "nullable") "type"
        (.arr [objGet (delKey fs "nullable") "type", .str "null"]),
      objGet (delKey fs "nullable") "type", ?_, ?_⟩
    · simp [convertNullables, hany]
    · exact objGet_setKey_self _ _ _

/-- A flat definitions object with one nullable fragment. -/
def c2wdoc : JVal := .obj [("Widget", .obj [("nullable", .bool true), ("type", .str "string")])]

/-- Witness for C2 at `c2wdoc`: no nullable key survives, and the nullable
fragment is rewritten to a two-element `type` array ending in "null". -/
theorem claim_C2_witness :
    hasKeySub "nullable" (convertNullables c2wdoc) = false
    ∧ ∃ rest t,
        convertNullables (.obj [("nullable", JVal.bool true), ("type", JVal.str "string")])
          = .obj rest ∧ objGet rest "type" = .arr [t, .str "null"] :=
  ⟨(claim_C2 c2wdoc rfl).1,
   (claim_C2 c2wdoc rfl).2 [("nullable", JVal.bool true), ("type", JVal.str "string")] rfl⟩

/-! ### Claim C3 -/

/-- A definitions object with nested nullable fragments, for refuting
idempotence. -/
def c3doc : JVal :=
  .obj [("Out", .obj [("nullable", .bool true),
    ("inner", .obj [("nullable", .bool true), ("type", .str "string")])])]

/-- C3 counterexample: `convertNullables` is not idempotent.  On `c3doc`
the first pass rewrites only the outer fragment (leaving the inner
`nullable` in place, so the premise of the claim's own justification
fails), and the second pass then rewrites the inner fragment, changing the
result again. -/
theorem claim_C3_cex :
    convertNullables (convertNullables c3doc) ≠ convertNullables c3doc := by
  intro h
  have h2 := congrArg (hasKeySub "nullable") h
  rw [show hasKeySub "nullable" (convertNullables (convertNullables c3doc)) = false from rfl,
    show hasKeySub "nullable" (convertNullables c3doc) = true from rfl] at h2
  exact Bool.noConfusion h2

/-- C3 (amended): on definitions in which no `nullable`-bearing fragment is
nested inside another `nullable`-bearing fragment, `convertNullables` is
idempotent — the first pass removes every `nullable` key, so the second
pass is a no-op. -/
theorem claim_C3 : ∀ d, noNested "nullable" d = true →
    convertNullables (convertNullables d) = convertNullables d :=
  fun d hd => convertNullables_of_free _ (convertNullables_free_of_noNested d hd)

/-- A flat definitions object for the C3 witness. -/
def c3wdoc : JVal :=
  .obj [("W", .obj [("nullable", .bool false), ("type", .str "integer")]),
        ("V", .obj [("type", .str "string")])]

/-- Witness for C3: idempotence holds at the concrete `c3wdoc`. -/
theorem claim_C3_witness :
    convertNullables (convertNullables c3wdoc) = convertNullables c3wdoc :=
  claim_C3 c3wdoc rfl

/-! ### Claim C4 -/

/-- The failing input for C4: `info` present, `title` missing, `description`
missing, `version` present. -/
def c4doc : JVal := .obj [("swagger", .str "2.0"), ("info", .obj [("version", .str "1.0")])]

/-- C4 (code bug): on a document whose `info` lacks `title` (and also lacks
`description`), `validateSwagger` does NOT classify the document as a
fatal error: the title check first sets ERROR, but the description check
then overwrites the whole result with a WARNING, and `ytoj` only aborts on
ERROR.  This contradicts the claim (and the source's own comment "Title is
required"). -/
theorem claim_C4 :
    validateSwagger c4doc
      = ⟨validation.WARNING, "The description is missing in the Swagger YAML."⟩
    ∧ (validateSwagger c4doc).status ≠ validation.ERROR :=
  ⟨rfl, by decide⟩

/-! ### Claims C9 and C10 -/

/-- With `info` present and `version` missing, the version check (the last
one to run) pins the result to a fatal ERROR with the version message,
whatever the title and description checks produced before it. -/
theorem validateSwagger_version_missing {doc : JVal}
    (hinfo : truthy (jget doc "info") = true)
    (hver : truthy (jget (jget doc "info") "version") = false) :
    validateSwagger doc
      = ⟨validation.ERROR, "The version is missing in the Swagger YAML."⟩ := by
  simp [validateSwagger, hinfo, hver]

/-- C9: for every input document (however parsed) whose `info` object is
present but lacks a truthy `version`, and any configuration whose `id`
passes validation, `ytoj` fails with exactly the version error — whose
message contains "version is missing". -/
theorem claim_C9 : ∀ (parse : String → Except String JVal) (validURL : String → Bool)
    (resolver : String → Except String String) (s : String) (cfg : Config) (doc : JVal),
    toJSON parse s = .ok (some doc) →
    truthy (jget doc "info") = true →
    truthy (jget (jget doc "info") "version") = false →
    (cfg.id = "" ∨ validURL cfg.id = true) →
    ytoj parse validURL resolver (.str s) cfg
      = .error "The version is missing in the Swagger YAML."
    ∧ strContains "The version is missing in the Swagger YAML." "version is missing"
      = true := by
  intro parse validURL resolver s cfg doc hjson hinfo hver hid
  have hval := validateSwagger_version_missing hinfo hver
  have hcond : (decide (cfg.id ≠ "") && !validURL cfg.id) = false := by
    rcases hid with h | h
    · simp [h]
    · simp [h]
  constructor
  · simp only [ytoj, hcond, Bool.false_eq_true, if_false, hjson, hval]
    rfl
  · rfl

def c9parse : String → Except String JVal :=
  fun _ => .ok (.obj [("swagger", .str "2.0"), ("info", .obj [("title", .str "T")])])

def c9validURL : String → Bool := fun _ => false

def c9resolver : String → Except String String := fun t => .ok t

def c9cfg : Config := ⟨"http://json-schema.org/draft-07/schema#", "", false, false⟩

/-- Witness for C9 at a concrete Swagger 2 document missing `info.version`. -/
theorem claim_C9_witness :
    ytoj c9parse c9validURL c9resolver (.str "yaml") c9cfg
      = .error "The version is missing in the Swagger YAML."
    ∧ strContains "The version is missing in the Swagger YAML." "version is missing"
      = true :=
  claim_C9 c9parse c9validURL c9resolver "yaml" c9cfg
    (.obj [("swagger", .str "2.0"), ("info", .obj [("title", .str "T")])])
    rfl rfl rfl (Or.inl rfl)

/-- C10: whenever the `input` argument is not a string, `ytoj` throws the
TypeError "Expected the input to be a string." — uniformly in the parser,
URL-validator and resolver oracles and in the options, which shows that no
parsing, validation or schema assembly takes place and no schema is
produced. -/
theorem claim_C10 : ∀ (parse : String → Except String JVal) (validURL : String → Bool)
    (resolver : String → Except String String) (input : JVal) (cfg : Config),
    isStr input = false →
    ytoj parse validURL resolver input cfg
      = .error "Expected the input to be a string." := by
  intro parse validURL resolver input cfg h
  cases input with
  | str s => simp [isStr] at h
  | undefined => rfl
  | null => rfl
  | bool b => rfl
  | num n => rfl
  | arr es => rfl
  | obj fs => rfl

/-- Witness for C10 at the object input used by the repository's own test
('API Invalid Input - not a string'). -/
theorem claim_C10_witness :
    ytoj c9parse c9validURL c9resolver (.obj [("a", .num 1)]) c9cfg
      = .error "Expected the input to be a string." :=
  claim_C10 c9parse c9validURL c9resolver (.obj [("a", .num 1)]) c9cfg rfl

/-! ### Claim C7: anonymous primitive naming -/

/-- A found container whose schema has a truthy, non-"array" `type` and
whose `name` is falsy: exactly the fragments that receive a synthetic
`<type>-<n>` name. -/
def isAnonScalarContainer (c : JVal) : Bool :=
  !truthy (jget c "name")
  && (match jget c "schema" with
      | .obj fs => truthy (objGet fs "type") && !isStrEq (objGet fs "type") "array"
      | _ => false)

/-- The string the type of a scalar fragment is coerced to in the template
literal of the synthetic name. -/
def scalarTypeName (c : JVal) : String :=
  jsToString (jget (jget c "schema") "type")

/-- An anonymous scalar container is written under the synthetic name
`<type>-<scalarId+1>` and bumps the counter. -/
theorem processContainer_anon {c : JVal} (n : Nat)
    (h : isAnonScalarContainer c = true) :
    processContainer c n
      = .ok ((scalarTypeName c ++ "-" ++ toString (n + 1),
              finishFrag c (jget c "schema")), n + 1) := by
  simp only [isAnonScalarContainer, Bool.and_eq_true, Bool.not_eq_true'] at h
  obtain ⟨hname, hmatch⟩ := h
  cases hs : jget c "schema" with
  | obj fs =>
    rw [hs] at hmatch
    simp only [Bool.and_eq_true, Bool.not_eq_true'] at hmatch
    obtain ⟨htype, harr⟩ := hmatch
    simp only [processContainer, scalarTypeName, hs]
    simp only [hname, Bool.false_eq_true, if_false]
    simp only [jsGet, jget]
    simp only [Bind.bind, Except.bind]
    rw [htype, harr]
    simp [truthy]
  | undefined => rw [hs] at hmatch; simp at hmatch
  | null => rw [hs] at hmatch; simp at hmatch
  | bool b => rw [hs] at hmatch; simp at hmatch
  | num m => rw [hs] at hmatch; simp at hmatch
  | str s => rw [hs] at hmatch; simp at hmatch
  | arr es => rw [hs] at hmatch; simp at hmatch

/-- Any successfully processed container that is not an anonymous scalar
leaves the counter unchanged. -/
theorem processContainer_counter {c : JVal} {n n2 : Nat} {pair : String × JVal}
    (h : processContainer c n = .ok (pair, n2))
    (hanon : isAnonScalarContainer c = false) : n2 = n := by
  unfold processContainer at h
  simp only [Bind.bind, Except.bind] at h
  cases hget : jsGet (jget c "schema") "type" with
  | error e =>
    rw [hget] at h
    simp at h
  | ok typeV =>
    rw [hget] at h
    simp only at h
    by_cases htr : truthy typeV = true
    · simp only [htr, if_true] at h
      by_cases harr : isStrEq typeV "array" = true
      · simp only [harr, if_true] at h
        cases href : jsGet (jget (jget c "schema") "items") "$ref" with
        | error e => rw [href] at h; simp at h
        | ok refV =>
          rw [href] at h
          simp only at h
          by_cases hpn : truthy (if truthy (jget c "name") then jget c "name"
              else JVal.str "") = true
          · simp only [hpn, if_true, Except.ok.injEq, Prod.mk.injEq] at h
            exact h.2.symm
          · simp only [hpn, Bool.false_eq_true, if_false] at h
            cases hso : sliceAfterLastSlashJS refV with
            | error e => rw [hso] at h; simp at h
            | ok sliced =>
              rw [hso] at h
              simp only [Except.ok.injEq, Prod.mk.injEq] at h
              exact h.2.symm
      · simp only [harr, Bool.false_eq_true, if_false] at h
        by_cases hpn : truthy (if truthy (jget c "name") then jget c "name"
            else JVal.str "") = true
        · simp only [hpn, if_true, Except.ok.injEq, Prod.mk.injEq] at h
          exact h.2.symm
        · -- this is the anonymous-scalar path: contradict hanon
          exfalso
          have hnm : truthy (jget c "name") = false := by
            by_contra hcon
            rw [Bool.not_eq_false] at hcon
            rw [if_pos hcon] at hpn
            exact hpn hcon
          have hobj : ∃ fs, jget c "schema" = .obj fs := by
            cases hs : jget c "schema" with
            | obj fs => exact ⟨fs, rfl⟩
            | undefined => rw [hs] at hget; simp [jsGet] at hget
            | null => rw [hs] at hget; simp [jsGet] at hget
            | bool b =>
              rw [hs] at hget
              simp [jsGet, jget] at hget
              rw [← hget] at htr
              simp [truthy] at htr
            | num m =>
              rw [hs] at hget
              simp [jsGet, jget] at hget
              rw [← hget] at htr
              simp [truthy] at htr
            | str s =>
              rw [hs] at hget
              simp [jsGet, jget] at hget
              rw [← hget] at htr
              simp [truthy] at htr
            | arr es =>
              rw [hs] at hget
              simp [jsGet, jget] at hget
              rw [← hget] at htr
              simp [truthy] at htr
          obtain ⟨fs, hs⟩ := hobj
          rw [hs] at hget
          simp only [jsGet, jget] at hget
          have htv : typeV = objGet fs "type" := by
            have := hget
            simp only [Except.ok.injEq] at this
            exact this.symm
          rw [isAnonScalarContainer, hnm, hs] at hanon
          simp only [Bool.not_false, Bool.true_and] at hanon
          rw [← htv] at hanon
          rw [htr] at hanon
          simp at hanon
          exact harr hanon
    · simp only [htr, Bool.false_eq_true, if_false] at h
      cases hso : sliceAfterLastSlashJS (jget (jget c "schema") "$ref") with
      | error e => rw [hso] at h; simp at h
      | ok sliced =>
        rw [hso] at h
        simp only at h
        cases hlf : lowerFirstJS sliced with
        | error e => rw [hlf] at h; simp at h
        | ok pn =>
          rw [hlf] at h
          simp only [Except.ok.injEq, Prod.mk.injEq] at h
          exact h.2.symm

/-- Through the whole loop, the i-th found container, when it is an
anonymous scalar, is written under `<type>-<n>` where `n` is the start
counter plus one plus the number of anonymous scalars among the preceding
containers. -/
theorem processContainers_anon_names :
    ∀ (cs : List JVal) (n0 : Nat) (pairs : List (String × JVal)) (nEnd : Nat),
      processContainers cs n0 = .ok (pairs, nEnd) →
      ∀ i, i < cs.length →
        isAnonScalarContainer (cs.getD i .undefined) = true →
        (pairs.getD i ("", .undefined)).1
          = scalarTypeName (cs.getD i .undefined) ++ "-"
            ++ toString (n0 + 1 + (cs.take i).countP (fun c => isAnonScalarContainer c)) := by
  intro cs
  induction cs with
  | nil =>
    intro n0 pairs nEnd h i hi
    simp at hi
  | cons c rest ih =>
    intro n0 pairs nEnd h i hi hanon
    simp only [processContainers] at h
    cases hp : processContainer c n0 with
    | error e =>
      rw [hp] at h
      simp at h
    | ok pr =>
      rw [hp] at h
      obtain ⟨pair, n1⟩ := pr
      simp only at h
      cases hr : processContainers rest n1 with
      | error e =>
        rw [hr] at h
        simp at h
      | ok pr2 =>
        rw [hr] at h
        obtain ⟨pairs2, n3⟩ := pr2
        simp only [Except.ok.injEq, Prod.mk.injEq] at h
        obtain ⟨hpairs, hnE⟩ := h
        subst hpairs
        cases i with
        | zero =>
          have hc : isAnonScalarContainer c = true := by
            simpa using hanon
          have hres := processContainer_anon n0 hc
          rw [hp] at hres
          simp only [Except.ok.injEq, Prod.mk.injEq] at hres
          obtain ⟨hpair, hn1⟩ := hres
          simp only [List.getD_cons_zero, List.take_zero, List.countP_nil, Nat.add_zero]
          rw [hpair]
        | succ j =>
          have hj : j < rest.length := by simpa using hi
          have hanonj : isAnonScalarContainer (rest.getD j .undefined) = true := by
            simpa using hanon
          simp only [List.getD_cons_succ]
          by_cases hc : isAnonScalarContainer c = true
          · have hres := processContainer_anon n0 hc
            rw [hres] at hp
            simp only [Except.ok.injEq, Prod.mk.injEq] at hp
            obtain ⟨_, hn1⟩ := hp
            have hIH := ih n1 pairs2 n3 hr j hj hanonj
            rw [hIH]
            have harith : n1 + 1 + (rest.take j).countP (fun c => isAnonScalarContainer c)
                = n0 + 1 + ((c :: rest).take (j + 1)).countP (fun c => isAnonScalarContainer c) := by
              rw [List.take_succ_cons, List.countP_cons]
              simp only [hc, if_true]
              omega
            rw [harith]
          · rw [Bool.not_eq_true] at hc
            have hn1 := processContainer_counter hp hc
            have hIH := ih n1 pairs2 n3 hr j hj hanonj
            rw [hIH]
            have harith : n1 + 1 + (rest.take j).countP (fun c => isAnonScalarContainer c)
                = n0 + 1 + ((c :: rest).take (j + 1)).countP (fun c => isAnonScalarContainer c) := by
              rw [List.take_succ_cons, List.countP_cons]
              simp only [hc, Bool.false_eq_true, if_false]
              omega
            rw [harith]

/-- A run containing first a falsy-named scalar fragment and then a
fragment with no `name` key at all. -/
def c7doc : JVal :=
  .obj [("a", .obj [("name", .str ""), ("schema", .obj [("type", .str "integer")])]),
        ("b", .obj [("schema", .obj [("type", .str "integer")])])]

/-- C7 counterexample: in `c7doc` the first found fragment carries an
explicit (but empty, hence falsy) `name` and still consumes the counter:
it is named "integer-1".  The second found fragment — the FIRST one with a
non-array type and no `name` field at all — is therefore named
"integer-2", not "integer-1" as the claim requires. -/
theorem claim_C7_cex :
    (match processContainers (findInNested c7doc "schema") 0 with
      | .ok (ps, _) => ps.map Prod.fst
      | .error _ => []) = ["integer-1", "integer-2"]
    ∧ objHasKey ((findInNested c7doc "schema").getD 1 .undefined) "name" = false
    ∧ jget (jget ((findInNested c7doc "schema").getD 1 .undefined) "schema") "type"
        = .str "integer" :=
  ⟨rfl, rfl, rfl⟩

/-- C7 (amended): within a single conversion run, every found fragment
whose schema has a truthy non-"array" `type` and whose container's `name`
is absent or falsy (an empty string also counts as anonymous, since the
source tests `if (container.name)`) is assigned the property name
`<type>-<n>`, where `n` starts at 1 and is incremented once per such
anonymous primitive fragment, in the order the fragments are found. -/
theorem claim_C7 : ∀ (swagger : JVal) (pairs : List (String × JVal)) (nEnd : Nat),
    processContainers (findInNested swagger "schema") 0 = .ok (pairs, nEnd) →
    ∀ i, i < (findInNested swagger "schema").length →
      isAnonScalarContainer ((findInNested swagger "schema").getD i .undefined) = true →
      (pairs.getD i ("", .undefined)).1
        = scalarTypeName ((findInNested swagger "schema").getD i .undefined) ++ "-"
          ++ toString (1 + ((findInNested swagger "schema").take i).countP
              (fun c => isAnonScalarContainer c)) := by
  intro swagger pairs nEnd h i hi hanon
  have := processContainers_anon_names (findInNested swagger "schema") 0 pairs nEnd h i hi hanon
  simpa using this

/-- A document with a single anonymous integer fragment. -/
def c7wdoc : JVal := .obj [("p", .obj [("schema", .obj [("type", .str "integer")])])]

/-- Witness for C7: the first anonymous integer fragment of `c7wdoc`
receives the name `integer-1`. -/
theorem claim_C7_witness :
    (([("integer-1", JVal.obj [("type", JVal.str "integer"), ("description", JVal.undefined)])].getD
        0 ("", JVal.undefined)).1 : String)
      = scalarTypeName ((findInNested c7wdoc "schema").getD 0 .undefined) ++ "-"
        ++ toString (1 + ((findInNested c7wdoc "schema").take 0).countP
            (fun c => isAnonScalarContainer c)) :=
  claim_C7 c7wdoc
    [("integer-1", JVal.obj [("type", JVal.str "integer"), ("description", JVal.undefined)])] 1
    rfl 0 (by decide) rfl

/-! ### Claim C6: fatal synthesis errors -/

theorem prefixOfBool {p s : List Char} : p.isPrefixOf s = true ↔ ∃ t, p ++ t = s := by
  induction p generalizing s with
  | nil => simp [List.isPrefixOf]
  | cons c pt ih =>
    cases s with
    | nil => simp [List.isPrefixOf]
    | cons d st =>
      simp only [List.isPrefixOf, Bool.and_eq_true, beq_iff_eq, ih]
      constructor
      · rintro ⟨h1, t, ht⟩
        exact ⟨t, by rw [List.cons_append, h1, ht]⟩
      · rintro ⟨t, ht⟩
        rw [List.cons_append] at ht
        injection ht with h1 h2
        exact ⟨h1, t, h2⟩

theorem occursWithin_append_left {p a : List Char} (b : List Char)
    (h : occursWithin p a = true) : occursWithin p (a ++ b) = true := by
  induction a with
  | nil =>
    simp only [occursWithin, List.isEmpty_iff] at h
    subst h
    cases b with
    | nil => rfl
    | cons c t => simp [occursWithin, List.isPrefixOf]
  | cons c t ih =>
    rw [List.cons_append]
    simp only [occursWithin, Bool.or_eq_true] at h ⊢
    rcases h with h | h
    · left
      rw [prefixOfBool] at h ⊢
      obtain ⟨u, hu⟩ := h
      refine ⟨u ++ b, ?_⟩
      rw [← List.append_assoc, hu]
      rfl
    · right
      exact ih h

/-- The structural conditions under which processing one found container
throws: the fragment is null/undefined or a non-object scalar or array (no
usable `type`, no usable `$ref`); or it is an object with a falsy `type`
and a non-string `$ref` (an array `$ref` also throws there, at the
`charAt(0)` step, since `slice` succeeds on it but the result is an array);
or it is array-typed and its `items` is missing or null, or (when the
container's `name` is falsy) `items.$ref` is neither a string nor an array
— an array-valued `items.$ref` does NOT throw, because arrays have
`lastIndexOf`/`slice` and `'arrayOf'.concat(...)` coerces the sliced array
to a string. -/
def badContainer (c : JVal) : Bool :=
  match jget c "schema" with
  | .undefined => true
  | .null => true
  | .obj fs =>
    if truthy (objGet fs "type") then
      if isStrEq (objGet fs "type") "array" then
        match objGet fs "items" with
        | .undefined => true
        | .null => true
        | items => !truthy (jget c "name")
                   && !(isStr (jget items "$ref") || isArr (jget items "$ref"))
      else false
    else !isStr (objGet fs "$ref")
  | _ => true

theorem sliceAfterLastSlashJS_error {v : JVal} (h1 : isStr v = false)
    (h2 : isArr v = false) : ∃ e, sliceAfterLastSlashJS v = .error e := by
  cases v with
  | str s => simp [isStr] at h1
  | arr es => simp [isArr] at h2
  | undefined => exact ⟨_, rfl⟩
  | null => exact ⟨_, rfl⟩
  | bool b => exact ⟨_, rfl⟩
  | num n => exact ⟨_, rfl⟩
  | obj fs => exact ⟨_, rfl⟩

/-- A bad container makes its processing step throw. -/
theorem processContainer_error_of_bad {c : JVal} (h : badContainer c = true) :
    ∀ n, ∃ e, processContainer c n = .error e := by
  intro n
  unfold badContainer at h
  cases hs : jget c "schema" with
  | undefined =>
    exact ⟨_, by simp only [processContainer, hs]; rfl⟩
  | null =>
    exact ⟨_, by simp only [processContainer, hs]; rfl⟩
  | bool b =>
    exact ⟨_, by simp only [processContainer, hs]; rfl⟩
  | num m =>
    exact ⟨_, by simp only [processContainer, hs]; rfl⟩
  | str s =>
    exact ⟨_, by simp only [processContainer, hs]; rfl⟩
  | arr es =>
    exact ⟨_, by simp only [processContainer, hs]; rfl⟩
  | obj fs =>
    rw [hs] at h
    simp only at h
    by_cases htype : truthy (objGet fs "type") = true
    · rw [if_pos htype] at h
      by_cases harr : isStrEq (objGet fs "type") "array" = true
      · rw [if_pos harr] at h
        cases hitems : objGet fs "items" with
        | undefined =>
          refine ⟨"Cannot read properties of undefined (reading '" ++ "$ref" ++ "')", ?_⟩
          simp only [processContainer, hs]
          simp only [jsGet, jget]
          simp only [Bind.bind, Except.bind]
          rw [htype, harr]
          simp only [if_true, hitems]
        | null =>
          refine ⟨"Cannot read properties of null (reading '" ++ "$ref" ++ "')", ?_⟩
          simp only [processContainer, hs]
          simp only [jsGet, jget]
          simp only [Bind.bind, Except.bind]
          rw [htype, harr]
          simp only [if_true, hitems]
        | bool b =>
          rw [hitems] at h
          simp only [Bool.and_eq_true, Bool.not_eq_true', Bool.or_eq_false_iff] at h
          obtain ⟨hname, hrefS, hrefA⟩ := h
          obtain ⟨e, he⟩ := sliceAfterLastSlashJS_error hrefS hrefA
          refine ⟨e, ?_⟩
          simp only [processContainer, hs]
          simp only [hname, Bool.false_eq_true, if_false]
          simp only [jsGet, jget]
          simp only [Bind.bind, Except.bind]
          rw [htype, harr]
          simp only [if_true, hitems]
          simp only [jget] at he
          simp [truthy, he]
        | num m =>
          rw [hitems] at h
          simp only [Bool.and_eq_true, Bool.not_eq_true', Bool.or_eq_false_iff] at h
          obtain ⟨hname, hrefS, hrefA⟩ := h
          obtain ⟨e, he⟩ := sliceAfterLastSlashJS_error hrefS hrefA
          refine ⟨e, ?_⟩
          simp only [processContainer, hs]
          simp only [hname, Bool.false_eq_true, if_false]
          simp only [jsGet, jget]
          simp only [Bind.bind, Except.bind]
          rw [htype, harr]
          simp only [if_true, hitems]
          simp only [jget] at he
          simp [truthy, he]
        | str s2 =>
          rw [hitems] at h
          simp only [Bool.and_eq_true, Bool.not_eq_true', Bool.or_eq_false_iff] at h
          obtain ⟨hname, hrefS, hrefA⟩ := h
          obtain ⟨e, he⟩ := sliceAfterLastSlashJS_error hrefS hrefA
          refine ⟨e, ?_⟩
          simp only [processContainer, hs]
          simp only [hname, Bool.false_eq_true, if_false]
          simp only [jsGet, jget]
          simp only [Bind.bind, Except.bind]
          rw [htype, harr]
          simp only [if_true, hitems]
          simp only [jget] at he
          simp [truthy, he]
        | arr es2 =>
          rw [hitems] at h
          simp only [Bool.and_eq_true, Bool.not_eq_true', Bool.or_eq_false_iff] at h
          obtain ⟨hname, hrefS, hrefA⟩ := h
          obtain ⟨e, he⟩ := sliceAfterLastSlashJS_error hrefS hrefA
          refine ⟨e, ?_⟩
          simp only [processContainer, hs]
          simp only [hname, Bool.false_eq_true, if_false]
          simp only [jsGet, jget]
          simp only [Bind.bind, Except.bind]
          rw [htype, harr]
          simp only [if_true, hitems]
          simp only [jget] at he
          simp [truthy, he]
        | obj fs2 =>
          rw [hitems] at h
          simp only [Bool.and_eq_true, Bool.not_eq_true', Bool.or_eq_false_iff] at h
          obtain ⟨hname, hrefS, hrefA⟩ := h
          obtain ⟨e, he⟩ := sliceAfterLastSlashJS_error hrefS hrefA
          refine ⟨e, ?_⟩
          simp only [processContainer, hs]
          simp only [hname, Bool.false_eq_true, if_false]
          simp only [jsGet, jget]
          simp only [Bind.bind, Except.bind]
          rw [htype, harr]
          simp only [if_true, hitems]
          simp only [jget] at he
          simp [truthy, he]
      · rw [if_neg harr] at h
        simp at h
    · rw [if_neg htype] at h
      simp only [Bool.not_eq_true'] at h
      rw [Bool.not_eq_true] at htype
      by_cases harr2 : isArr (objGet fs "$ref") = true
      · -- array-valued $ref: slice succeeds, charAt(0) then throws
        obtain ⟨es, hes⟩ : ∃ es, objGet fs "$ref" = .arr es := by
          cases hv : objGet fs "$ref" with
          | arr es => exact ⟨es, rfl⟩
          | undefined => rw [hv] at harr2; simp [isArr] at harr2
          | null => rw [hv] at harr2; simp [isArr] at harr2
          | bool b => rw [hv] at harr2; simp [isArr] at harr2
          | num m => rw [hv] at harr2; simp [isArr] at harr2
          | str s => rw [hv] at harr2; simp [isArr] at harr2
          | obj fs2 => rw [hv] at harr2; simp [isArr] at harr2
        refine ⟨"propName.charAt is not a function", ?_⟩
        simp only [processContainer, hs]
        simp only [jsGet, jget]
        simp only [Bind.bind, Except.bind]
        rw [htype]
        simp only [Bool.false_eq_true, if_false]
        rw [hes]
        rfl
      · rw [Bool.not_eq_true] at harr2
        obtain ⟨e, he⟩ := sliceAfterLastSlashJS_error h harr2
        refine ⟨e, ?_⟩
        simp only [processContainer, hs]
        simp only [jsGet, jget]
        simp only [Bind.bind, Except.bind]
        rw [htype]
        simp only [Bool.false_eq_true, if_false]
        simp [he]

/-- If any found container is bad, the whole loop throws. -/
theorem processContainers_error_of_bad :
    ∀ cs : List JVal, (∃ c ∈ cs, badContainer c = true) →
      ∀ n, ∃ e, processContainers cs n = .error e := by
  intro cs
  induction cs with
  | nil =>
    rintro ⟨c, hc, _⟩ n
    simp at hc
  | cons hd tl ih =>
    rintro ⟨c, hc, hbad⟩ n
    rcases List.mem_cons.mp hc with h | h
    · subst h
      obtain ⟨e, he⟩ := processContainer_error_of_bad hbad n
      exact ⟨e, by simp [processContainers, he]⟩
    · cases hp : processContainer hd n with
      | error e => exact ⟨e, by simp [processContainers, hp]⟩
      | ok pr =>
        obtain ⟨pair, n1⟩ := pr
        obtain ⟨e, he⟩ := ih ⟨c, h, hbad⟩ n1
        exact ⟨e, by simp [processContainers, hp, he]⟩

/-- C6 (amended): if any found schema fragment is structurally bad — it is
null/undefined or a scalar or array (no usable `type` and no usable
`$ref`), or an object with falsy `type` and non-string `$ref`, or
array-typed with missing/null `items`, or array-typed in an anonymous
container with an `items.$ref` that is neither a string nor an array —
then the whole synthesis step fails with the descriptive error naming the
requirement ("each schema that is not a $ref"), aborting the conversion;
no per-fragment skipping occurs.  An array-typed fragment whose `items`
object merely lacks `$ref` does NOT abort when the container has a usable
`name`, and an anonymous one whose `items.$ref` is itself an array does
not abort either: JavaScript arrays have `lastIndexOf`/`slice`, and
`'arrayOf'.concat(...)` coerces the sliced array to a string (see the
counterexample for both). -/
theorem claim_C6 : ∀ (swagger : JVal) (props : List (String × JVal)),
    (∃ c ∈ findInNested swagger "schema", badContainer c = true) →
    ∃ e, addSchemaProps swagger props = .error e
      ∧ strContains e "each schema that is not a $ref" = true := by
  intro swagger props hex
  obtain ⟨e0, he0⟩ := processContainers_error_of_bad _ hex 0
  refine ⟨"Could not parse Swagger paths, make sure that each schema that is not a $ref has a type.\n  " ++ e0,
    ?_, ?_⟩
  · simp [addSchemaProps, he0]
  · unfold strContains
    rw [show (("Could not parse Swagger paths, make sure that each schema that is not a $ref has a type.\n  " : String) ++ e0).data
        = ("Could not parse Swagger paths, make sure that each schema that is not a $ref has a type.\n  " : String).data ++ e0.data from rfl]
    exact occursWithin_append_left _ rfl

/-- A document with a named, array-typed fragment whose `items` carry no
`$ref`. -/
def c6doc : JVal :=
  .obj [("p", .obj [("name", .str "x"),
    ("schema", .obj [("type", .str "array"), ("items", .obj [])])])]

/-- A document with one anonymous array-typed fragment whose `items.$ref`
is the (non-string) array `['X']`. -/
def c6arrdoc : JVal :=
  .obj [("p", .obj [("schema",
    .obj [("type", .str "array"), ("items", .obj [("$ref", .arr [.str "X"])])])])]

/-- C6 counterexample: `c6doc` contains a found fragment that is
structurally malformed in exactly the claim's exemplified sense (an
array-typed fragment whose items carry no `$ref`), yet `addSchemaProps`
does not throw: the container's `name` short-circuits the naming logic and
the fragment is written out under that name.  And in `c6arrdoc` the
anonymous array-typed fragment has a non-string `items.$ref` (the array
`['X']`), yet the run also succeeds, writing the fragment under
`arrayOfX`: `['X'].slice(['X'].lastIndexOf('/') + 1)` is `['X']` and
`'arrayOf'.concat(['X'])` coerces it to `'X'`. -/
theorem claim_C6_cex :
    addSchemaProps c6doc []
      = .ok [("x", .obj [("type", .str "array"), ("items", .obj []), ("description", .undefined)])]
    ∧ jget (jget ((findInNested c6doc "schema").getD 0 .undefined) "schema") "type"
        = .str "array"
    ∧ jget (jget (jget ((findInNested c6doc "schema").getD 0 .undefined) "schema") "items") "$ref"
        = .undefined
    ∧ addSchemaProps c6arrdoc []
      = .ok [("arrayOfX", .obj [("type", .str "array"),
               ("items", .obj [("$ref", .arr [.str "X"])]),
               ("description", .undefined)])]
    ∧ isStr (jget (jget (jget ((findInNested c6arrdoc "schema").getD 0 .undefined) "schema") "items") "$ref")
        = false :=
  ⟨rfl, rfl, rfl, rfl, rfl⟩

/-- A document with one anonymous fragment lacking both `type` and `$ref`. -/
def c6wdoc : JVal := .obj [("p", .obj [("schema", .obj [])])]

/-- Witness for C6: on `c6wdoc` the synthesis step fails and the error
message names the requirement. -/
theorem claim_C6_witness :
    ∃ e, addSchemaProps c6wdoc [] = .error e
      ∧ strContains e "each schema that is not a $ref" = true :=
  claim_C6 c6wdoc []
    ⟨.obj [("schema", .obj [])], List.mem_singleton.mpr rfl, rfl⟩

/-! ### Claim C8: AsyncAPI message extraction -/

/-- Lookup distinguishing an absent key from an undefined value. -/
def lookupKey (l : List (String × JVal)) (k : String) : Option JVal :=
  (l.find? (fun kv => kv.1 = k)).map (fun kv => kv.2)

/-- The merged property value produced for a message entry:
`{...value, ...value.payload}` with `payload` deleted. -/
def mergedOf (value : JVal) : List (String × JVal) :=
  delKey (spreadFold (spreadFold [] (spreadEntries value))
    (spreadEntries (jget value "payload"))) "payload"

theorem lookupKey_setKey_self (l : List (String × JVal)) (k : String) (v : JVal) :
    lookupKey (setKey l k v) k = some v := by
  induction l with
  | nil => simp [setKey, lookupKey]
  | cons hd tl ih =>
    by_cases hk : hd.1 = k
    · simp [setKey, hk, lookupKey]
    · simp only [setKey, hk, if_false]
      simpa [lookupKey, List.find?, hk] using ih

theorem lookupKey_setKey_ne {k k2 : String} (l : List (String × JVal)) (v : JVal)
    (h : k ≠ k2) : lookupKey (setKey l k v) k2 = lookupKey l k2 := by
  induction l with
  | nil => simp [setKey, lookupKey, List.find?, h]
  | cons hd tl ih =>
    by_cases hk : hd.1 = k
    · simp only [setKey, hk, if_true]
      simp [lookupKey, List.find?, h, hk]
    · simp only [setKey, hk, if_false]
      by_cases hk2 : hd.1 = k2
      · simp [lookupKey, List.find?, hk2]
      · simpa [lookupKey, List.find?, hk2] using ih

theorem objGet_setKey_ne {k k2 : String} (l : List (String × JVal)) (v : JVal)
    (h : k ≠ k2) : objGet (setKey l k v) k2 = objGet l k2 := by
  induction l with
  | nil => simp [setKey, objGet, List.find?, h]
  | cons hd tl ih =>
    by_cases hk : hd.1 = k
    · simp only [setKey, hk, if_true]
      simp [objGet, List.find?, h, hk]
    · simp only [setKey, hk, if_false]
      by_cases hk2 : hd.1 = k2
      · simp [objGet, List.find?, hk2]
      · simpa [objGet, List.find?, hk2] using ih

theorem objGet_delKey_ne {k k2 : String} (l : List (String × JVal))
    (h : k2 ≠ k) : objGet (delKey l k) k2 = objGet l k2 := by
  induction l with
  | nil => rfl
  | cons hd tl ih =>
    by_cases hk : hd.1 = k
    · have h1 : delKey (hd :: tl) k = delKey tl k := by
        simp [delKey, List.filter_cons, hk]
      have h2 : objGet (hd :: tl) k2 = objGet tl k2 := by
        have hne : hd.1 ≠ k2 := by
          rw [hk]
          exact fun hcon => h hcon.symm
        simp [objGet, List.find?, hne]
      rw [h1, h2, ih]
    · have h1 : delKey (hd :: tl) k = hd :: delKey tl k := by
        simp [delKey, List.filter_cons, hk]
      rw [h1]
      by_cases hk2 : hd.1 = k2
      · simp [objGet, List.find?, hk2]
      · simpa [objGet, List.find?, hk2] using ih

theorem objGet_of_no_key {l : List (String × JVal)} {k : String}
    (h : l.any (fun kv => kv.1 = k) = false) : objGet l k = .undefined := by
  unfold objGet
  cases hf : l.find? (fun kv => kv.1 = k) with
  | none => rfl
  | some kv =>
    have hmem := List.mem_of_find?_eq_some hf
    have hkey := List.find?_some hf
    rw [List.any_eq_false] at h
    exact absurd hkey (by simpa using h kv hmem)

theorem spreadFold_notin {k2 : String} :
    ∀ (b a : List (String × JVal)), b.any (fun kv => kv.1 = k2) = false →
      objGet (spreadFold a b) k2 = objGet a k2 := by
  intro b
  induction b with
  | nil => intro a _; rfl
  | cons hd tl ih =>
    intro a h
    simp only [List.any_cons, Bool.or_eq_false_iff] at h
    have hne : hd.1 ≠ k2 := by simpa using h.1
    have : spreadFold a (hd :: tl) = spreadFold (setKey a hd.1 hd.2) tl := by
      simp [spreadFold]
    rw [this, ih _ h.2, objGet_setKey_ne _ _ hne]

theorem spreadFold_get_nodup {k2 : String} :
    ∀ (b a : List (String × JVal)), (b.map Prod.fst).Nodup →
      b.any (fun kv => kv.1 = k2) = true →
      objGet (spreadFold a b) k2 = objGet b k2 := by
  intro b
  induction b with
  | nil =>
    intro a _ h
    simp at h
  | cons hd tl ih =>
    intro a hnd h
    simp only [List.map_cons, List.nodup_cons] at hnd
    have hstep : spreadFold a (hd :: tl) = spreadFold (setKey a hd.1 hd.2) tl := by
      simp [spreadFold]
    rw [hstep]
    by_cases hk : hd.1 = k2
    · have htl : tl.any (fun kv => kv.1 = k2) = false := by
        rw [List.any_eq_false]
        intro kv hkv
        simp only [decide_eq_true_eq]
        intro hcon
        exact hnd.1 (by rw [hk, ← hcon]; exact List.mem_map_of_mem Prod.fst hkv)
      rw [spreadFold_notin tl _ htl]
      rw [← hk, objGet_setKey_self]
      simp [objGet, List.find?, hk]
    · have htl : tl.any (fun kv => kv.1 = k2) = true := by
        simpa [List.any_cons, hk] using h
      rw [ih _ hnd.2 htl]
      simp [objGet, List.find?, hk]

/-- Folding a nodup field list into an empty object literal preserves
lookups. -/
theorem spreadFold_nil_get {k2 : String} (a : List (String × JVal))
    (hnd : (a.map Prod.fst).Nodup) :
    objGet (spreadFold [] a) k2 = objGet a k2 := by
  cases hany : a.any (fun kv => kv.1 = k2) with
  | true => exact spreadFold_get_nodup a [] hnd hany
  | false =>
    rw [spreadFold_notin a [] hany, objGet_of_no_key hany]
    rfl

theorem delKey_all_ne (l : List (String × JVal)) (k : String) :
    (delKey l k).all (fun kv => kv.1 ≠ k) = true := by
  rw [List.all_eq_true]
  intro kv hkv
  simpa using key_ne_of_mem_delKey hkv

/-- Case analysis of one extraction step that returned normally. -/
theorem asyncStep_ok {r r1 : List (String × JVal)} {kv : String × JVal}
    (h : asyncStep r kv = .ok r1) :
    (isObjectLike (jget kv.2 "payload") = true
       ∧ r1 = setKey r kv.1 (.obj (mergedOf kv.2)))
    ∨ (isObjectLike (jget kv.2 "payload") = false ∧ r1 = r) := by
  unfold asyncStep at h
  cases hg : jsGet kv.2 "payload" with
  | error e =>
    rw [hg] at h
    simp [Bind.bind, Except.bind] at h
  | ok payload =>
    rw [hg] at h
    simp only [Bind.bind, Except.bind] at h
    have hpl : payload = jget kv.2 "payload" := by
      cases hv : kv.2 with
      | undefined => rw [hv] at hg; simp [jsGet] at hg
      | null => rw [hv] at hg; simp [jsGet] at hg
      | bool b => rw [hv] at hg; simp only [jsGet, Except.ok.injEq] at hg; rw [← hg]
      | num n => rw [hv] at hg; simp only [jsGet, Except.ok.injEq] at hg; rw [← hg]
      | str s => rw [hv] at hg; simp only [jsGet, Except.ok.injEq] at hg; rw [← hg]
      | arr es => rw [hv] at hg; simp only [jsGet, Except.ok.injEq] at hg; rw [← hg]
      | obj fs => rw [hv] at hg; simp only [jsGet, Except.ok.injEq] at hg; rw [← hg]
    by_cases hobj : isObjectLike payload = true
    · left
      rw [hobj] at h
      simp only [if_true, Except.ok.injEq] at h
      refine ⟨by rw [← hpl]; exact hobj, ?_⟩
      rw [← h]
      unfold mergedOf
      rw [← hpl]
    · right
      rw [Bool.not_eq_true] at hobj
      rw [hobj] at h
      simp only [Bool.false_eq_true, if_false, Except.ok.injEq] at h
      exact ⟨by rw [← hpl]; exact hobj, h.symm⟩

/-- The fold never changes the binding of a key owned by none of its
entries. -/
theorem asyncFold_other {key : String} :
    ∀ (entries : List (String × JVal)) (r0 r : List (String × JVal)),
      entries.foldlM asyncStep r0 = .ok r →
      (∀ kv ∈ entries, kv.1 ≠ key) →
      lookupKey r key = lookupKey r0 key := by
  intro entries
  induction entries with
  | nil =>
    intro r0 r h _
    simp only [List.foldlM_nil] at h
    cases h
    rfl
  | cons hd tl ih =>
    intro r0 r h hne
    rw [List.foldlM_cons] at h
    cases hstep : asyncStep r0 hd with
    | error e =>
      rw [hstep] at h
      simp [Bind.bind, Except.bind] at h
    | ok r1 =>
      rw [hstep] at h
      simp only [Bind.bind, Except.bind] at h
      have h1 : lookupKey r key = lookupKey r1 key :=
        ih r1 r h (fun kv hkv => hne kv (List.mem_cons_of_mem hd hkv))
      rcases asyncStep_ok hstep with ⟨_, hr1⟩ | ⟨_, hr1⟩
      · rw [h1, hr1, lookupKey_setKey_ne _ _ (hne hd (List.mem_cons_self hd tl))]
      · rw [h1, hr1]

/-- Through the whole reduce, an entry with an object-like payload ends up
bound (under the message's own key) to the merged object, and an entry
with a primitive payload leaves the key exactly as the initial accumulator
had it. -/
theorem asyncFold_lookup {key : String} {value : JVal} :
    ∀ (entries : List (String × JVal)) (r0 r : List (String × JVal)),
      entries.foldlM asyncStep r0 = .ok r →
      (entries.map Prod.fst).Nodup →
      (key, value) ∈ entries →
      (isObjectLike (jget value "payload") = true →
          lookupKey r key = some (.obj (mergedOf value)))
      ∧ (isObjectLike (jget value "payload") = false →
          lookupKey r key = lookupKey r0 key) := by
  intro entries
  induction entries with
  | nil =>
    intro r0 r _ _ hmem
    simp at hmem
  | cons hd tl ih =>
    intro r0 r h hnd hmem
    rw [List.foldlM_cons] at h
    cases hstep : asyncStep r0 hd with
    | error e =>
      rw [hstep] at h
      simp [Bind.bind, Except.bind] at h
    | ok r1 =>
      rw [hstep] at h
      simp only [Bind.bind, Except.bind] at h
      simp only [List.map_cons, List.nodup_cons] at hnd
      rcases List.mem_cons.mp hmem with heq | hmem2
      · have hkv1 : hd.1 = key := by rw [← heq]
        have hkv2 : hd.2 = value := by rw [← heq]
        have hother : ∀ kv ∈ tl, kv.1 ≠ key := by
          intro kv hkv hcon
          apply hnd.1
          rw [hkv1, ← hcon]
          exact List.mem_map_of_mem Prod.fst hkv
        have hpres := asyncFold_other tl r1 r h hother
        rcases asyncStep_ok hstep with ⟨hobj, hr1⟩ | ⟨hobj, hr1⟩
        · rw [hkv2] at hobj
          constructor
          · intro _
            rw [hpres, hr1, hkv1, hkv2, lookupKey_setKey_self]
          · intro hobj2
            rw [hobj] at hobj2
            exact absurd hobj2 (by simp)
        · rw [hkv2] at hobj
          constructor
          · intro hobj2
            rw [hobj] at hobj2
            exact absurd hobj2 (by simp)
          · intro _
            rw [hpres, hr1]
      · have hIH := ih r1 r h hnd.2 hmem2
        have hne : hd.1 ≠ key := by
          intro hcon
          apply hnd.1
          rw [hcon]
          have := List.mem_map_of_mem Prod.fst hmem2
          simpa using this
        constructor
        · exact fun hobj => hIH.1 hobj
        · intro hobj
          rw [hIH.2 hobj]
          rcases asyncStep_ok hstep with ⟨_, hr1⟩ | ⟨_, hr1⟩
          · rw [hr1, lookupKey_setKey_ne _ _ hne]
          · rw [hr1]

/-- Payload fields win over message fields in the merge, other message
fields survive, for JavaScript objects (whose keys are necessarily
duplicate-free). -/
theorem mergedOf_get {value : JVal} {k2 : String} (hk2 : k2 ≠ "payload")
    (hndv : ((spreadEntries value).map Prod.fst).Nodup)
    (hndp : ((spreadEntries (jget value "payload")).map Prod.fst).Nodup) :
    objGet (mergedOf value) k2
      = if (spreadEntries (jget value "payload")).any (fun kv => kv.1 = k2)
        then objGet (spreadEntries (jget value "payload")) k2
        else objGet (spreadEntries value) k2 := by
  unfold mergedOf
  rw [objGet_delKey_ne _ hk2]
  cases hany : (spreadEntries (jget value "payload")).any (fun kv => kv.1 = k2) with
  | true =>
    simp only [hany, if_true]
    exact spreadFold_get_nodup _ _ hndp hany
  | false =>
    simp only [hany, Bool.false_eq_true, if_false]
    rw [spreadFold_notin _ _ hany, spreadFold_nil_get _ hndv]

/-- C8 (amended): for every AsyncAPI message container and every entry in
it, if the entry's `payload` passes the source's
`typeof value.payload === 'object'` test (plain objects — but also null
and arrays, see the counterexample), the extraction binds the message's
own key to the shallow merge of the message's fields with the payload's
fields — payload fields winning on conflicts, other message fields kept,
and the `payload` key itself deleted; entries whose `payload` is a
primitive (string, number, boolean, undefined/absent) contribute no
property. -/
theorem claim_C8 : ∀ (ms : List (String × JVal)) (r : List (String × JVal)),
    extractSchemaPropertiesFromAsyncAPI (.obj ms) = .ok r →
    (ms.map Prod.fst).Nodup →
    ∀ key value, (key, value) ∈ ms →
      (isObjectLike (jget value "payload") = true →
          lookupKey r key = some (.obj (mergedOf value))
          ∧ (mergedOf value).all (fun kv => kv.1 ≠ "payload") = true
          ∧ (∀ k2, k2 ≠ "payload" →
              ((spreadEntries value).map Prod.fst).Nodup →
              ((spreadEntries (jget value "payload")).map Prod.fst).Nodup →
              objGet (mergedOf value) k2
                = if (spreadEntries (jget value "payload")).any (fun kv => kv.1 = k2)
                  then objGet (spreadEntries (jget value "payload")) k2
                  else objGet (spreadEntries value) k2))
      ∧ (isObjectLike (jget value "payload") = false →
          lookupKey r key = none) := by
  intro ms r h hnd key value hmem
  have hfold : ms.foldlM asyncStep [] = .ok r := h
  have hmain := asyncFold_lookup ms [] r hfold hnd hmem
  constructor
  · intro hobj
    refine ⟨hmain.1 hobj, delKey_all_ne _ _, ?_⟩
    intro k2 hk2 hndv hndp
    exact mergedOf_get hk2 hndv hndp
  · intro hobj
    rw [hmain.2 hobj]
    rfl

/-- A message container with a null payload. -/
def c8doc : JVal := .obj [("m", .obj [("q", .num 7), ("payload", .null)])]

/-- C8 counterexample: a message whose `payload` is null — not an object —
is NOT skipped: because `typeof null === 'object'`, the extraction
produces a property for it (the message without its `payload` key). -/
theorem claim_C8_cex :
    extractSchemaPropertiesFromAsyncAPI c8doc = .ok [("m", .obj [("q", .num 7)])] := rfl

/-- A message container exercising both branches of C8. -/
def c8wdoc : List (String × JVal) :=
  [("m1", .obj [("summary", .str "s"), ("x", .str "old"),
      ("payload", .obj [("x", .str "new"), ("type", .str "object")])]),
   ("m2", .obj [("payload", .num 5)])]

/-- Witness for C8: on `c8wdoc`, the object-payload message is merged
(payload wins on `x`, `payload` removed) and the number-payload message is
skipped. -/
theorem claim_C8_witness :
    (lookupKey ((extractSchemaPropertiesFromAsyncAPI (.obj c8wdoc)).toOption.getD []) "m1"
        = some (.obj (mergedOf (.obj [("summary", .str "s"), ("x", .str "old"),
            ("payload", .obj [("x", .str "new"), ("type", .str "object")])]))))
    ∧ objGet (mergedOf (.obj [("summary", .str "s"), ("x", .str "old"),
          ("payload", .obj [("x", .str "new"), ("type", .str "object")])])) "x"
        = .str "new"
    ∧ lookupKey ((extractSchemaPropertiesFromAsyncAPI (.obj c8wdoc)).toOption.getD []) "m2"
        = none := by
  have h1 := claim_C8 c8wdoc
    ((extractSchemaPropertiesFromAsyncAPI (.obj c8wdoc)).toOption.getD []) rfl
    (by decide) "m1"
    (.obj [("summary", .str "s"), ("x", .str "old"),
      ("payload", .obj [("x", .str "new"), ("type", .str "object")])])
    (List.mem_cons_self _ _)
  have h2 := claim_C8 c8wdoc
    ((extractSchemaPropertiesFromAsyncAPI (.obj c8wdoc)).toOption.getD []) rfl
    (by decide) "m2" (.obj [("payload", .num 5)])
    (List.mem_cons_of_mem _ (List.mem_cons_self _ _))
  obtain ⟨hm1, _, hwin⟩ := h1.1 rfl
  refine ⟨hm1, ?_, h2.2 rfl⟩
  rw [hwin "x" (by decide) (by decide) (by decide)]
  rfl

/-! ### Claim C5: the reference rewrite -/

/-- The pattern of the reference rewrite. -/
def refPat : List Char := "#/components/schemas".data

/-- The replacement of the reference rewrite. -/
def refRep : List Char := "#/definitions".data

theorem hash_not_in_refPat_tail : ¬ '#' ∈ refPat.drop 1 := by decide

theorem hash_not_in_refRep_tail : ¬ '#' ∈ refRep.drop 1 := by decide

theorem refPat_take_ne_refRep : ¬ refPat.take 13 = refRep := by decide

/-- Substring occurrence as an existential. -/
theorem occursWithin_iff {p : List Char} : ∀ {s : List Char},
    occursWithin p s = true ↔ p <:+: s := by
  intro s
  induction s with
  | nil =>
    simp only [occursWithin, List.isEmpty_iff]
    constructor
    · intro h
      subst h
      exact ⟨[], [], rfl⟩
    · rintro ⟨u, v, huv⟩
      have h1 := List.append_eq_nil.mp huv
      exact (List.append_eq_nil.mp h1.1).2
  | cons c t ih =>
    simp only [occursWithin, Bool.or_eq_true, prefixOfBool, ih]
    constructor
    · rintro (⟨u, hu⟩ | h)
      · exact ⟨[], u, by simpa using hu⟩
      · obtain ⟨u, v, huv⟩ := h
        exact ⟨c :: u, v, by rw [← huv]; simp⟩
    · rintro ⟨u, v, huv⟩
      cases u with
      | nil =>
        left
        exact ⟨v, by simpa using huv⟩
      | cons u0 u2 =>
        right
        simp only [List.cons_append, List.cons.injEq] at huv
        exact ⟨u2, v, huv.2⟩

/-- Decomposition of an occurrence inside a concatenation: the occurrence
lies in the left part, in the right part, or straddles the border. -/
theorem infix_append_cases {α : Type} {P A B : List α} (h : P <:+: A ++ B) :
    P <:+: A ∨ P <:+: B
    ∨ ∃ k, 0 < k ∧ k < P.length ∧ (P.take k) <:+ A ∧ (P.drop k) <+: B := by
  obtain ⟨u, v, huv⟩ := h
  rw [List.append_assoc] at huv
  rcases List.append_eq_append_iff.mp huv with ⟨a2, hA, hPv⟩ | ⟨c2, _, hB⟩
  · rcases List.append_eq_append_iff.mp hPv with ⟨p2, ha2, _⟩ | ⟨k2, hP, hB2⟩
    · left
      exact ⟨u, p2, by rw [hA, ha2, ← List.append_assoc]⟩
    · by_cases hk0 : a2.length = 0
      · right; left
        have ha2nil : a2 = [] := List.length_eq_zero.mp hk0
        rw [ha2nil, List.nil_append] at hP
        exact ⟨[], v, by rw [List.nil_append, hP, hB2]⟩
      · by_cases hklen : a2.length < P.length
        · right; right
          refine ⟨a2.length, Nat.pos_of_ne_zero hk0, hklen, ?_, ?_⟩
          · have htake : P.take a2.length = a2 := by
              rw [hP]
              exact List.take_left a2 k2
            rw [htake]
            exact ⟨u, hA.symm⟩
          · have hdrop : P.drop a2.length = k2 := by
              rw [hP]
              exact List.drop_left a2 k2
            rw [hdrop]
            exact ⟨v, hB2.symm⟩
        · left
          have hlen : P.length = a2.length + k2.length := by
            rw [hP, List.length_append]
          have hk2 : k2 = [] := by
            have : k2.length = 0 := by omega
            exact List.length_eq_zero.mp this
          rw [hk2, List.append_nil] at hP
          exact ⟨u, [], by rw [List.append_nil, hP, hA]⟩
  · right; left
    exact ⟨c2, v, by rw [List.append_assoc, hB]⟩

/-- Tracking a proper suffix of the pattern through the replacement: if a
nonempty-index tail of the pattern is a prefix of the rewritten text, it
was already a prefix of the original text (the replacement can never
produce it, as the pattern's later characters contain no `#`). -/
theorem replaceGo_drop_prefix :
    ∀ (fuel : Nat) (s : List Char), s.length ≤ fuel →
      ∀ k, 1 ≤ k →
        refPat.drop k <+: replaceGo refPat refRep fuel s →
        refPat.drop k <+: s := by
  intro fuel
  induction fuel with
  | zero =>
    intro s hs k _ h
    have hnil : s = [] := List.length_eq_zero.mp (Nat.le_zero.mp hs)
    subst hnil
    exact h
  | succ fuel ih =>
    intro s hs k hk h
    cases s with
    | nil => exact h
    | cons c rest =>
      by_cases hpre : refPat.isPrefixOf (c :: rest) = true
      · have hout : replaceGo refPat refRep (fuel + 1) (c :: rest)
            = refRep ++ replaceGo refPat refRep fuel (rest.drop (refPat.length - 1)) := by
          simp [replaceGo, hpre]
        rw [hout] at h
        by_cases hD : refPat.drop k = []
        · rw [hD]
          exact ⟨c :: rest, rfl⟩
        · exfalso
          obtain ⟨d, D2, hD2⟩ := List.exists_cons_of_ne_nil hD
          obtain ⟨t, ht⟩ := h
          have hhead : d = '#' := by
            rw [hD2] at ht
            have hh : (refRep
                ++ replaceGo refPat refRep fuel (rest.drop (refPat.length - 1))).head?
                = some '#' := rfl
            rw [← ht] at hh
            simpa using hh
          have hmem : d ∈ refPat.drop 1 := by
            have h1 : d ∈ refPat.drop k := by
              rw [hD2]
              exact List.mem_cons_self _ _
            have h2 : refPat.drop k ⊆ refPat.drop 1 := by
              have hdd : (refPat.drop 1).drop (k - 1) = refPat.drop k := by
                rw [List.drop_drop]
                congr 1
                omega
              rw [← hdd]
              exact List.drop_subset _ _
            exact h2 h1
          rw [hhead] at hmem
          exact hash_not_in_refPat_tail hmem
      · have hout : replaceGo refPat refRep (fuel + 1) (c :: rest)
            = c :: replaceGo refPat refRep fuel rest := by
          simp [replaceGo, hpre]
        rw [hout] at h
        by_cases hD : refPat.drop k = []
        · rw [hD]
          exact ⟨c :: rest, rfl⟩
        · obtain ⟨d, D2, hD2⟩ := List.exists_cons_of_ne_nil hD
          rw [hD2] at h
          obtain ⟨t, ht⟩ := h
          injection ht with h1 h2
          have hD2eq : D2 = refPat.drop (k + 1) := by
            have htl : (refPat.drop k).tail = refPat.drop (k + 1) := by
              rw [List.tail_drop]
            rw [hD2] at htl
            simpa using htl
          have hD2p : refPat.drop (k + 1) <+: replaceGo refPat refRep fuel rest := by
            rw [← hD2eq]
            exact ⟨t, h2⟩
          have hrest : refPat.drop (k + 1) <+: rest :=
            ih rest (by simpa using hs) (k + 1) (by omega) hD2p
          have hD2rest : D2 <+: rest := by
            rw [hD2eq]
            exact hrest
          obtain ⟨t2, ht2⟩ := hD2rest
          rw [hD2, h1]
          exact ⟨t2, by rw [List.cons_append, ht2]⟩

/-- The global replacement leaves no occurrence of the pattern behind: the
replacement cannot contain one (it is shorter), the boundaries cannot form
one (the pattern and the replacement contain `#` only as their first
character, and the replacement is not a prefix of the pattern), and every
occurrence in the remaining text is itself replaced. -/
theorem replaceGo_no_refPat :
    ∀ (fuel : Nat) (s : List Char), s.length ≤ fuel →
      ¬ refPat <:+: replaceGo refPat refRep fuel s := by
  intro fuel
  induction fuel with
  | zero =>
    intro s hs h
    have hnil : s = [] := List.length_eq_zero.mp (Nat.le_zero.mp hs)
    subst hnil
    obtain ⟨u, v, huv⟩ := h
    have h1 := List.append_eq_nil.mp huv
    have h2 := (List.append_eq_nil.mp h1.1).2
    exact absurd h2 (by decide)
  | succ fuel ih =>
    intro s hs h
    cases s with
    | nil =>
      obtain ⟨u, v, huv⟩ := h
      have h1 := List.append_eq_nil.mp huv
      have h2 := (List.append_eq_nil.mp h1.1).2
      exact absurd h2 (by decide)
    | cons c rest =>
      have hrest : rest.length ≤ fuel := by simpa using hs
      by_cases hpre : refPat.isPrefixOf (c :: rest) = true
      · have hout : replaceGo refPat refRep (fuel + 1) (c :: rest)
            = refRep ++ replaceGo refPat refRep fuel (rest.drop (refPat.length - 1)) := by
          simp [replaceGo, hpre]
        rw [hout] at h
        rcases infix_append_cases h with hA | hB | ⟨k, hk0, hklt, hsuf, hprefb⟩
        · obtain ⟨u, v, huv⟩ := hA
          have hlen := congrArg List.length huv
          have h20 : refPat.length = 20 := rfl
          have h13 : refRep.length = 13 := rfl
          simp only [List.length_append, h20, h13] at hlen
          omega
        · refine ih (rest.drop (refPat.length - 1)) ?_ hB
          have := List.length_drop (refPat.length - 1) rest
          omega
        · obtain ⟨u, hu⟩ := hsuf
          cases u with
          | nil =>
            rw [List.nil_append] at hu
            have hlen := congrArg List.length hu
            have h13 : refRep.length = 13 := rfl
            simp only [List.length_take, h13] at hlen
            have h20 : refPat.length = 20 := rfl
            rw [h20] at hlen
            have hk13 : k = 13 := by omega
            rw [hk13] at hu
            exact refPat_take_ne_refRep hu
          | cons u0 u2 =>
            have hkne : refPat.take k ≠ [] := by
              intro hcon
              have := congrArg List.length hcon
              have h20 : refPat.length = 20 := rfl
              simp only [List.length_take, h20] at this
              simp at this
              omega
            obtain ⟨d, D2, hD2⟩ := List.exists_cons_of_ne_nil hkne
            have hd : d = '#' := by
              cases k with
              | zero => omega
              | succ k0 =>
                have hrp : refPat.take (k0 + 1)
                    = '#' :: (("/components/schemas".data).take k0) := rfl
                rw [hrp] at hD2
                injection hD2 with hh _
                exact hh.symm
            have hmem : d ∈ refRep.drop 1 := by
              have hre : refRep = u0 :: (u2 ++ refPat.take k) := by
                rw [← hu]
                rfl
              have h2 : refRep.drop 1 = u2 ++ refPat.take k := by
                rw [hre]
                rfl
              rw [h2, hD2]
              exact List.mem_append_right u2 (List.mem_cons_self _ _)
            rw [hd] at hmem
            exact hash_not_in_refRep_tail hmem
      · have hout : replaceGo refPat refRep (fuel + 1) (c :: rest)
            = c :: replaceGo refPat refRep fuel rest := by
          simp [replaceGo, hpre]
        rw [hout] at h
        obtain ⟨u, v, huv⟩ := h
        cases u with
        | nil =>
          rw [List.nil_append] at huv
          have hrp : refPat = '#' :: refPat.drop 1 := rfl
          rw [hrp, List.cons_append] at huv
          injection huv with h1 h2
          have hdp : refPat.drop 1 <+: replaceGo refPat refRep fuel rest := ⟨v, h2⟩
          have hrestp : refPat.drop 1 <+: rest :=
            replaceGo_drop_prefix fuel rest hrest 1 le_rfl hdp
          apply hpre
          rw [prefixOfBool]
          obtain ⟨t2, ht2⟩ := hrestp
          refine ⟨t2, ?_⟩
          rw [hrp, List.cons_append, ht2, h1]
        | cons u0 u2 =>
          simp only [List.cons_append, List.cons.injEq] at huv
          exact ih rest hrest ⟨u2, v, huv.2⟩

/-- No occurrence of the pattern survives the replacement. -/
theorem replaceList_no_refPat (s : List Char) :
    ¬ refPat <:+: replaceList refPat refRep s :=
  replaceGo_no_refPat s.length s le_rfl

/-- The fuel of `replaceGo` is irrelevant as long as it bounds the text. -/
theorem replaceGo_fuel_eq (p r : List Char) :
    ∀ (f1 : Nat) (s : List Char) (f2 : Nat), s.length ≤ f1 → s.length ≤ f2 →
      replaceGo p r f1 s = replaceGo p r f2 s := by
  intro f1
  induction f1 with
  | zero =>
    intro s f2 h1 _
    have hnil : s = [] := List.length_eq_zero.mp (Nat.le_zero.mp h1)
    subst hnil
    cases f2 with
    | zero => rfl
    | succ g2 => rfl
  | succ g1 ih =>
    intro s f2 h1 h2
    cases s with
    | nil =>
      cases f2 with
      | zero => rfl
      | succ g2 => rfl
    | cons c rest =>
      cases f2 with
      | zero => simp at h2
      | succ g2 =>
        by_cases hpre : p.isPrefixOf (c :: rest) = true
        · have hl : replaceGo p r (g1 + 1) (c :: rest)
              = r ++ replaceGo p r g1 (rest.drop (p.length - 1)) := by
            simp [replaceGo, hpre]
          have hr : replaceGo p r (g2 + 1) (c :: rest)
              = r ++ replaceGo p r g2 (rest.drop (p.length - 1)) := by
            simp [replaceGo, hpre]
          rw [hl, hr]
          have hd := List.length_drop (p.length - 1) rest
          have hg1 : (rest.drop (p.length - 1)).length ≤ g1 := by
            simp only [List.length_cons] at h1
            omega
          have hg2 : (rest.drop (p.length - 1)).length ≤ g2 := by
            simp only [List.length_cons] at h2
            omega
          rw [ih (rest.drop (p.length - 1)) g2 hg1 hg2]
        · have hl : replaceGo p r (g1 + 1) (c :: rest)
              = c :: replaceGo p r g1 rest := by
            simp [replaceGo, hpre]
          have hr : replaceGo p r (g2 + 1) (c :: rest)
              = c :: replaceGo p r g2 rest := by
            simp [replaceGo, hpre]
          rw [hl, hr]
          have hg1 : rest.length ≤ g1 := by
            simp only [List.length_cons] at h1
            omega
          have hg2 : rest.length ≤ g2 := by
            simp only [List.length_cons] at h2
            omega
          rw [ih rest g2 hg1 hg2]

/-- A text that starts with the pattern is rewritten to start with the
replacement (the rewrite of dialect-container references). -/
theorem replaceList_prefix_hit (u : List Char) :
    replaceList refPat refRep (refPat ++ u) = refRep ++ replaceList refPat refRep u := by
  unfold replaceList
  have hlen : (refPat ++ u).length = (u.length + 19) + 1 := by
    have h20 : refPat.length = 20 := rfl
    simp only [List.length_append, h20]
    omega
  rw [hlen]
  have hshape : refPat ++ u = '#' :: ("/components/schemas".data ++ u) := rfl
  rw [hshape]
  have hpre : refPat.isPrefixOf ('#' :: ("/components/schemas".data ++ u)) = true := by
    rw [prefixOfBool]
    exact ⟨u, rfl⟩
  have hout : replaceGo refPat refRep ((u.length + 19) + 1)
      ('#' :: ("/components/schemas".data ++ u))
      = refRep ++ replaceGo refPat refRep (u.length + 19)
          (("/components/schemas".data ++ u).drop (refPat.length - 1)) := by
    rw [replaceGo]
    rw [if_pos hpre]
  rw [hout]
  have hdrop : ("/components/schemas".data ++ u).drop (refPat.length - 1) = u := by
    have h19 : refPat.length - 1 = ("/components/schemas".data).length := rfl
    rw [h19]
    exact List.drop_left _ u
  rw [hdrop]
  congr 1
  exact replaceGo_fuel_eq refPat refRep (u.length + 19) u u.length (by omega) le_rfl

/-- C5 (amended): for every OpenAPI 3 or AsyncAPI 2 input document (with
`resolveRefs` off, the dereferencer being an external collaborator), the
schema text returned by the conversion contains no occurrence of the
substring "#/components/schemas"; and any text starting with that
container prefix is rewritten to start with "#/definitions".  Reference
strings that pointed anywhere else are left unchanged, so not every
reference string of the output points into "#/definitions/..." (see the
counterexample). -/
theorem claim_C5 : ∀ (resolver : String → Except String String) (swagger : JVal)
    (cfg : Config) (t : String),
    (truthy (jget swagger "openapi") = true ∨ truthy (jget swagger "asyncapi") = true) →
    cfg.resolveRefs = false →
    makeSchemaText resolver swagger cfg = .ok t →
    strContains t "#/components/schemas" = false
    ∧ ∀ u : String,
        replaceStr "#/components/schemas" "#/definitions" ("#/components/schemas" ++ u)
          = "#/definitions" ++ replaceStr "#/components/schemas" "#/definitions" u := by
  intro resolver swagger cfg t hdial hres h
  constructor
  · unfold makeSchemaText at h
    cases has : assembleSchema swagger cfg with
    | error e =>
      rw [has] at h
      simp [Bind.bind, Except.bind] at h
    | ok schemaObj =>
      rw [has] at h
      simp only [Bind.bind, Except.bind] at h
      rw [hres] at h
      simp only [Bool.false_eq_true, if_false] at h
      have hcond : (truthy (jget swagger "openapi") || truthy (jget swagger "asyncapi"))
          = true := by
        rcases hdial with h1 | h1 <;> simp [h1]
      rw [hcond] at h
      simp only [if_true, Except.ok.injEq] at h
      rw [← h]
      show occursWithin refPat
        (replaceList refPat refRep (jsonStringify schemaObj).data) = false
      rw [Bool.eq_false_iff]
      intro hcon
      exact replaceList_no_refPat _ (occursWithin_iff.mp hcon)
  · intro u
    exact congrArg (fun l => (⟨l⟩ : String)) (replaceList_prefix_hit u.data)

def c5resolver : String → Except String String := fun t => .ok t

def c5cfg : Config := ⟨"http://json-schema.org/draft-07/schema#", "", false, false⟩

/-- An OpenAPI 3 document whose only schema holds a reference into the
dialect-specific message container rather than into the schema container. -/
def c5doc : JVal :=
  .obj [("openapi", .str "3.0.0"),
    ("info", .obj [("title", .str "T"), ("version", .str "1"), ("description", .str "D")]),
    ("components", .obj [("schemas",
      .obj [("A", .obj [("$ref", .str "#/components/messages/M")])])])]

set_option maxRecDepth 100000 in
/-- C5 counterexample: the conversion of `c5doc` returns a schema whose
serialization still contains the reference string
"#/components/messages/M" — a reference that does not point into
"#/definitions/..." (only the "#/components/schemas" prefix is ever
rewritten). -/
theorem claim_C5_cex :
    strContains ((makeSchemaText c5resolver c5doc c5cfg).toOption.getD "")
      "\"$ref\":\"#/components/messages/M\"" = true
    ∧ strContains ((makeSchemaText c5resolver c5doc c5cfg).toOption.getD "")
      "#/definitions/M" = false :=
  ⟨rfl, rfl⟩

/-- An OpenAPI 3 document with an ordinary schema-container reference. -/
def c5wdoc : JVal :=
  .obj [("openapi", .str "3.0.0"),
    ("info", .obj [("title", .str "T"), ("version", .str "1"), ("description", .str "D")]),
    ("components", .obj [("schemas",
      .obj [("A", .obj [("$ref", .str "#/components/schemas/B")]),
            ("B", .obj [("type", .str "object")])])])]

def c5wT : String := (makeSchemaText c5resolver c5wdoc c5cfg).toOption.getD ""

set_option maxRecDepth 100000 in
/-- Witness for C5 at `c5wdoc`: the output text is free of the old
container path, and a reference into the old container is rewritten. -/
theorem claim_C5_witness :
    strContains c5wT "#/components/schemas" = false
    ∧ replaceStr "#/components/schemas" "#/definitions" ("#/components/schemas" ++ "/X")
        = "#/definitions" ++ replaceStr "#/components/schemas" "#/definitions" "/X" := by
  have h := claim_C5 c5resolver c5wdoc c5cfg c5wT (Or.inl rfl) rfl rfl
  exact ⟨h.1, h.2 "/X"⟩
